import Mathlib

/-!
Verification of the proof-of-concept DAG workflow engine.

Shallow embedding of the Python source files `dag.py`, `node.py`,
`conduit.py`, `result.py` and `enums.py`.  Nodes are identified by
natural numbers (Python compares node objects by identity; a graph holds
concrete node references, so an injective numbering is faithful).
Python lists become Lean lists, exceptions become `Except`, and the
recursive DFS of `Dag.topological_sort` is given an explicit fuel
argument whose sufficiency is proved below.
-/

namespace PocDag

/-- Decidable equality for `Except`, used to evaluate embedded
operations on concrete inputs. -/
instance {ε α : Type} [DecidableEq ε] [DecidableEq α] : DecidableEq (Except ε α) := fun x y =>
  match x, y with
  | .ok a, .ok b =>
      if h : a = b then .isTrue (by rw [h]) else .isFalse (by intro hc; cases hc; exact h rfl)
  | .error a, .error b =>
      if h : a = b then .isTrue (by rw [h]) else .isFalse (by intro hc; cases hc; exact h rfl)
  | .ok _, .error _ => .isFalse (by intro hc; cases hc)
  | .error _, .ok _ => .isFalse (by intro hc; cases hc)

/-- An arc `(source, destination)` of the dependency graph (`dag.py`). -/
abbrev Arc := Nat × Nat

/-- Errors surfaced by the graph layer, following the spec taxonomy:
`cycleError` is the `RecursionError("Cycle detected.")` of
`Dag.topological_sort`, `valueError` the membership `ValueError` of
`Dag.add_arc` and `Dag._is_in_dag`. -/
inductive DagErr
  | cycleError
  | valueError
  | notInGraph
deriving DecidableEq, Repr

/-- `_remove_duplicates` from `dag.py`: walk the list, appending each
item to the accumulator unless it is already present. -/
def removeDuplicatesGo (acc : List Nat) : List Nat → List Nat
  | [] => acc
  | x :: xs =>
      if x ∈ acc then removeDuplicatesGo acc xs
      else removeDuplicatesGo (acc ++ [x]) xs

/-- `_remove_duplicates(lst)` (`dag.py` lines 9–14). -/
def remove_duplicates (l : List Nat) : List Nat := removeDuplicatesGo [] l

/-- `Dag.nodes` (`dag.py` lines 34–36): deduplicated arc endpoints,
sources first, preserving first-seen order. -/
def nodesOf (arcs : List Arc) : List Nat :=
  remove_duplicates (arcs.map Prod.fst ++ arcs.map Prod.snd)

/-- `Dag.sources` (`dag.py` lines 21–24): arc sources `x` such that no
arc `(y, x)` with `y ≠ x` exists, where `y` ranges over arc sources. -/
def sourcesOf (arcs : List Arc) : List Nat :=
  remove_duplicates
    ((arcs.filter (fun a =>
        arcs.all (fun b => b.1 == a.1 || !(arcs.contains (b.1, a.1))))).map Prod.fst)

/-- `Dag.sinks` (`dag.py` lines 26–32): arc destinations `y` such that
no arc `(y, x)` with `x ≠ y` exists, where `x` ranges over arc
destinations. -/
def sinksOf (arcs : List Arc) : List Nat :=
  remove_duplicates
    ((arcs.filter (fun a =>
        arcs.all (fun b => b.2 == a.2 || !(arcs.contains (a.2, b.2))))).map Prod.snd)

/-- The graph object: its only stored field is the arc list
(`Dag.__init__`, `dag.py` lines 17–19). -/
structure Dag where
  arcs : List Arc
deriving DecidableEq, Repr

/-- Mutable state of the DFS in `Dag.topological_sort` (`dag.py` lines
66–68): the output deque, the permanently visited list and the
in-progress (`temp_visited`) list. -/
structure TSState where
  sortedNodes : List Nat
  visited : List Nat
  tempVisited : List Nat
deriving DecidableEq, Repr

/-- Outcome of a DFS visit: success with the new state, the cycle
error raised on revisiting an in-progress node, or exhaustion of the
artificial fuel (proved unreachable for the fuel chosen below). -/
inductive VisitResult
  | ok (s : TSState)
  | cycle
  | outOfFuel
deriving DecidableEq, Repr

/-- `neighbor for src, neighbor in dag.arcs if src == node` (`dag.py`
line 80): destinations of arcs whose source is `node`, in arc order. -/
def neighborsGen (arcs : List Arc) (node : Nat) : List Nat :=
  (arcs.filter (fun a => a.1 == node)).map Prod.snd

/-- The inner `visit` closure of `Dag.topological_sort` (`dag.py` lines
70–85), with explicit fuel bounding the recursion depth; the
`for neighbor in …: visit(neighbor)` loop is a fold that propagates a
raised error past the remaining neighbors. -/
def visit (arcs : List Arc) : Nat → Nat → TSState → VisitResult
  | 0, _, _ => .outOfFuel
  | fuel + 1, node, s =>
      if node ∈ s.visited then .ok s
      else if node ∈ s.tempVisited then .cycle
      else
        match (neighborsGen arcs node).foldl
            (fun (r : VisitResult) n =>
              match r with | .ok t => visit arcs fuel n t | e => e)
            (.ok ⟨s.sortedNodes, s.visited, s.tempVisited ++ [node]⟩) with
        | .ok s2 =>
            .ok ⟨node :: s2.sortedNodes, s2.visited ++ [node], s2.tempVisited.erase node⟩
        | .cycle => .cycle
        | .outOfFuel => .outOfFuel

/-- The neighbor loop of `visit`, as a standalone function. -/
def visitList (arcs : List Arc) (fuel : Nat) (ns : List Nat) (s : TSState) : VisitResult :=
  ns.foldl (fun (r : VisitResult) n =>
    match r with | .ok t => visit arcs fuel n t | e => e) (.ok s)

/-- The driver loop of `Dag.topological_sort` (`dag.py` lines 87–90):
visit every graph node not yet permanently visited. -/
def sortLoop (arcs : List Arc) (fuel : Nat) : List Nat → TSState → VisitResult
  | [], s => .ok s
  | n :: ns, s =>
      if n ∈ s.visited then sortLoop arcs fuel ns s
      else
        match visit arcs fuel n s with
        | .ok s' => sortLoop arcs fuel ns s'
        | .cycle => .cycle
        | .outOfFuel => .outOfFuel

/-- Fuel sufficient for the DFS: one more than the number of graph
nodes (the `temp_visited` stack never exceeds the node count). -/
def tsFuel (arcs : List Arc) : Nat := (nodesOf arcs).length + 1

/-- `Dag.topological_sort` (`dag.py` lines 64–92), as a function of the
arc list (the static method only reads `dag.arcs` and assigns no
attribute).  Fuel exhaustion is proved unreachable below. -/
def topological_sort (arcs : List Arc) : Except DagErr (List Nat) :=
  match sortLoop arcs (tsFuel arcs) (nodesOf arcs) ⟨[], [], []⟩ with
  | .ok s => .ok s.sortedNodes
  | .cycle => .error .cycleError
  | .outOfFuel => .error .cycleError

/-- Calling the static method on a `Dag` object: it returns the order
and leaves the object untouched (no attribute assignment occurs in
`dag.py` lines 64–92). -/
def Dag.topological_sortM (d : Dag) : Except DagErr (List Nat) × Dag :=
  (topological_sort d.arcs, d)

/-! ### Properties of `_remove_duplicates` -/

/-- Spec-side reference function: deduplication keeping the first
occurrence of every element, in first-seen order ("deduplicated
preserving first-seen order"). -/
def firstSeenDedup : List Nat → List Nat
  | [] => []
  | x :: xs => x :: firstSeenDedup (xs.filter (fun y => y != x))
termination_by l => l.length
decreasing_by
  exact Nat.lt_succ_of_le (List.length_filter_le _ _)

theorem firstSeenDedup_nil : firstSeenDedup [] = [] := by
  simp [firstSeenDedup]

theorem firstSeenDedup_cons (x : Nat) (xs : List Nat) :
    firstSeenDedup (x :: xs) = x :: firstSeenDedup (xs.filter (fun y => y != x)) := by
  simp [firstSeenDedup]

theorem mem_firstSeenDedup (l : List Nat) : ∀ a, a ∈ firstSeenDedup l ↔ a ∈ l := by
  induction l using firstSeenDedup.induct with
  | case1 => simp [firstSeenDedup_nil]
  | case2 x xs ih =>
      intro a
      rw [firstSeenDedup_cons]
      by_cases hax : a = x
      · subst hax; simp
      · simp only [List.mem_cons, ih, List.mem_filter]
        constructor
        · rintro (rfl | ⟨h, _⟩)
          · exact .inl rfl
          · exact .inr h
        · rintro (rfl | h)
          · exact .inl rfl
          · exact .inr ⟨h, by simp [hax]⟩

theorem nodup_firstSeenDedup (l : List Nat) : (firstSeenDedup l).Nodup := by
  induction l using firstSeenDedup.induct with
  | case1 => simp [firstSeenDedup_nil]
  | case2 x xs ih =>
      rw [firstSeenDedup_cons]
      refine List.nodup_cons.mpr ⟨?_, ih⟩
      intro hmem
      have := (mem_firstSeenDedup _ x).mp hmem
      simp [List.mem_filter] at this

theorem firstSeenDedup_sublist (l : List Nat) : (firstSeenDedup l).Sublist l := by
  induction l using firstSeenDedup.induct with
  | case1 => simp [firstSeenDedup_nil]
  | case2 x xs ih =>
      rw [firstSeenDedup_cons]
      exact (ih.trans (List.filter_sublist xs)).cons₂ x

/-- The accumulator loop of `_remove_duplicates` computes the
first-seen deduplication of the items not already accumulated. -/
theorem removeDuplicatesGo_eq (l : List Nat) : ∀ acc : List Nat,
    removeDuplicatesGo acc l = acc ++ firstSeenDedup (l.filter (fun y => !(acc.contains y))) := by
  induction l with
  | nil => intro acc; simp [removeDuplicatesGo, firstSeenDedup_nil]
  | cons x xs ih =>
      intro acc
      by_cases hx : x ∈ acc
      · rw [removeDuplicatesGo, if_pos hx, ih]
        have : (x :: xs).filter (fun y => !(acc.contains y)) =
            xs.filter (fun y => !(acc.contains y)) := by
          rw [List.filter_cons]
          simp [hx]
        rw [this]
      · rw [removeDuplicatesGo, if_neg hx, ih]
        have hfc : (x :: xs).filter (fun y => !(acc.contains y)) =
            x :: xs.filter (fun y => !(acc.contains y)) := by
          rw [List.filter_cons]
          simp [hx]
        have hff : xs.filter (fun y => !((acc ++ [x]).contains y)) =
            (xs.filter (fun y => !(acc.contains y))).filter (fun y => y != x) := by
          rw [List.filter_filter]
          apply List.filter_congr
          intro y _
          by_cases hyx : y = x
          · subst hyx; simp
          · by_cases hya : y ∈ acc <;> simp [hyx, hya]
        rw [hfc, firstSeenDedup_cons, List.append_assoc, hff]
        rfl

/-- `_remove_duplicates` is exactly first-seen deduplication. -/
theorem remove_duplicates_eq_firstSeenDedup (l : List Nat) :
    remove_duplicates l = firstSeenDedup l := by
  rw [remove_duplicates, removeDuplicatesGo_eq]
  simp

theorem remove_duplicates_nodup (l : List Nat) : (remove_duplicates l).Nodup := by
  rw [remove_duplicates_eq_firstSeenDedup]; exact nodup_firstSeenDedup l

theorem mem_remove_duplicates (l : List Nat) : ∀ a, a ∈ remove_duplicates l ↔ a ∈ l := by
  rw [remove_duplicates_eq_firstSeenDedup]; exact mem_firstSeenDedup l

theorem remove_duplicates_sublist (l : List Nat) : (remove_duplicates l).Sublist l := by
  rw [remove_duplicates_eq_firstSeenDedup]; exact firstSeenDedup_sublist l

/-! ### Membership facts about `nodesOf` and `neighborsGen` -/

theorem nodesOf_nodup (arcs : List Arc) : (nodesOf arcs).Nodup :=
  remove_duplicates_nodup _

theorem mem_nodesOf {arcs : List Arc} {x : Nat} :
    x ∈ nodesOf arcs ↔ (∃ p ∈ arcs, p.1 = x) ∨ (∃ p ∈ arcs, p.2 = x) := by
  rw [nodesOf, mem_remove_duplicates]
  simp [List.mem_append, List.mem_map]

theorem fst_mem_nodesOf {arcs : List Arc} {p : Arc} (hp : p ∈ arcs) : p.1 ∈ nodesOf arcs :=
  mem_nodesOf.mpr (.inl ⟨p, hp, rfl⟩)

theorem snd_mem_nodesOf {arcs : List Arc} {p : Arc} (hp : p ∈ arcs) : p.2 ∈ nodesOf arcs :=
  mem_nodesOf.mpr (.inr ⟨p, hp, rfl⟩)

theorem mem_neighborsGen {arcs : List Arc} {node y : Nat} :
    y ∈ neighborsGen arcs node ↔ (node, y) ∈ arcs := by
  rw [neighborsGen]
  simp only [List.mem_map, List.mem_filter, beq_iff_eq]
  constructor
  · rintro ⟨p, ⟨hp, h1⟩, h2⟩
    have : p = (node, y) := by
      cases p; simp_all
    rwa [this] at hp
  · intro h
    exact ⟨(node, y), ⟨h, rfl⟩, rfl⟩

theorem neighborsGen_subset_nodesOf {arcs : List Arc} {node : Nat} :
    ∀ y ∈ neighborsGen arcs node, y ∈ nodesOf arcs := by
  intro y hy
  exact snd_mem_nodesOf (mem_neighborsGen.mp hy)

/-! ### Unfolding equations for the DFS -/

theorem visit_zero (arcs : List Arc) (node : Nat) (s : TSState) :
    visit arcs 0 node s = .outOfFuel := rfl

theorem visit_succ (arcs : List Arc) (fuel node : Nat) (s : TSState) :
    visit arcs (fuel + 1) node s =
      if node ∈ s.visited then .ok s
      else if node ∈ s.tempVisited then .cycle
      else
        match visitList arcs fuel (neighborsGen arcs node)
            ⟨s.sortedNodes, s.visited, s.tempVisited ++ [node]⟩ with
        | .ok s2 =>
            .ok ⟨node :: s2.sortedNodes, s2.visited ++ [node], s2.tempVisited.erase node⟩
        | .cycle => .cycle
        | .outOfFuel => .outOfFuel := rfl

theorem visitList_nil (arcs : List Arc) (fuel : Nat) (s : TSState) :
    visitList arcs fuel [] s = .ok s := rfl

theorem foldlVisit_not_ok (arcs : List Arc) (fuel : Nat) (ns : List Nat) (e : VisitResult)
    (he : ∀ t, e ≠ .ok t) :
    ns.foldl (fun (r : VisitResult) n =>
      match r with | .ok t => visit arcs fuel n t | e' => e') e = e := by
  induction ns with
  | nil => rfl
  | cons n ns ih =>
      cases e with
      | ok t => exact absurd rfl (he t)
      | cycle => exact ih
      | outOfFuel => exact ih

theorem visitList_cons (arcs : List Arc) (fuel n : Nat) (ns : List Nat) (s : TSState) :
    visitList arcs fuel (n :: ns) s =
      match visit arcs fuel n s with
      | .ok s' => visitList arcs fuel ns s'
      | .cycle => .cycle
      | .outOfFuel => .outOfFuel := by
  show List.foldl _ (visit arcs fuel n s) ns = _
  cases h : visit arcs fuel n s with
  | ok s' => rfl
  | cycle => exact foldlVisit_not_ok arcs fuel ns .cycle (by intro t hc; cases hc)
  | outOfFuel => exact foldlVisit_not_ok arcs fuel ns .outOfFuel (by intro t hc; cases hc)

/-! ### DFS invariants -/

/-- Invariant of the DFS state: the output deque contains exactly the
permanently visited nodes without duplicates, in-progress nodes are
disjoint from visited ones, everything recorded is a graph node, and
the output already orders every arc between recorded nodes
source-before-destination. -/
structure TSInv (arcs : List Arc) (s : TSState) : Prop where
  mem_iff : ∀ x, x ∈ s.sortedNodes ↔ x ∈ s.visited
  nodupS : s.sortedNodes.Nodup
  nodupT : s.tempVisited.Nodup
  disj : ∀ x ∈ s.tempVisited, x ∉ s.visited
  subV : ∀ x ∈ s.visited, x ∈ nodesOf arcs
  subT : ∀ x ∈ s.tempVisited, x ∈ nodesOf arcs
  ord : ∀ p ∈ arcs, p.1 ∈ s.sortedNodes →
      p.2 ∈ s.sortedNodes ∧
        List.indexOf p.1 s.sortedNodes < List.indexOf p.2 s.sortedNodes

/-- Postcondition of a successful `visit` at a given fuel level. -/
def VisitOkP (arcs : List Arc) (fuel : Nat) : Prop :=
  ∀ node s s', TSInv arcs s → node ∈ nodesOf arcs → visit arcs fuel node s = .ok s' →
    TSInv arcs s' ∧ s'.tempVisited = s.tempVisited ∧ s.visited <+: s'.visited ∧
      node ∈ s'.visited

/-- Postcondition of a successful neighbor loop at a given fuel level. -/
def VisitListOkP (arcs : List Arc) (fuel : Nat) : Prop :=
  ∀ ns s s', TSInv arcs s → (∀ n ∈ ns, n ∈ nodesOf arcs) →
    visitList arcs fuel ns s = .ok s' →
    TSInv arcs s' ∧ s'.tempVisited = s.tempVisited ∧ s.visited <+: s'.visited ∧
      ∀ n ∈ ns, n ∈ s'.visited

theorem visitListOk_of_visitOk (arcs : List Arc) (fuel : Nat)
    (H : VisitOkP arcs fuel) : VisitListOkP arcs fuel := by
  intro ns
  induction ns with
  | nil =>
      intro s s' hinv _ hok
      rw [visitList_nil] at hok
      cases hok
      exact ⟨hinv, rfl, List.prefix_refl _, by simp⟩
  | cons n ns ih =>
      intro s s' hinv hsub hok
      rw [visitList_cons] at hok
      cases hv : visit arcs fuel n s with
      | ok s₁ =>
          rw [hv] at hok
          obtain ⟨hinv₁, htemp₁, hpre₁, hmem₁⟩ :=
            H n s s₁ hinv (hsub n (by simp)) hv
          obtain ⟨hinv', htemp', hpre', hmem'⟩ :=
            ih s₁ s' hinv₁ (fun m hm => hsub m (by simp [hm])) hok
          refine ⟨hinv', htemp'.trans htemp₁, hpre₁.trans hpre', ?_⟩
          intro m hm
          rcases List.mem_cons.mp hm with rfl | hm'
          · exact hpre'.subset hmem₁
          · exact hmem' m hm'
      | cycle => rw [hv] at hok; cases hok
      | outOfFuel => rw [hv] at hok; cases hok

theorem visitOk_succ_of_visitListOk (arcs : List Arc) (fuel : Nat)
    (H : VisitListOkP arcs fuel) : VisitOkP arcs (fuel + 1) := by
  intro node s s' hinv hnode hok
  rw [visit_succ] at hok
  by_cases hv : node ∈ s.visited
  · rw [if_pos hv] at hok
    cases hok
    exact ⟨hinv, rfl, List.prefix_refl _, hv⟩
  · rw [if_neg hv] at hok
    by_cases ht : node ∈ s.tempVisited
    · rw [if_pos ht] at hok; cases hok
    · rw [if_neg ht] at hok
      set s1 : TSState := ⟨s.sortedNodes, s.visited, s.tempVisited ++ [node]⟩ with hs1
      have hinv1 : TSInv arcs s1 := by
        refine ⟨hinv.mem_iff, hinv.nodupS, ?_, ?_, hinv.subV, ?_, hinv.ord⟩
        · exact hinv.nodupT.append (by simp) (by simp [List.disjoint_singleton, ht])
        · intro x hx
          rcases List.mem_append.mp hx with hx' | hx'
          · exact hinv.disj x hx'
          · rw [List.mem_singleton.mp hx']; exact hv
        · intro x hx
          rcases List.mem_append.mp hx with hx' | hx'
          · exact hinv.subT x hx'
          · rw [List.mem_singleton.mp hx']; exact hnode
      cases hvl : visitList arcs fuel (neighborsGen arcs node) s1 with
      | ok s2 =>
          rw [hvl] at hok
          cases hok
          obtain ⟨hinv2, htemp2, hpre2, hmem2⟩ :=
            H (neighborsGen arcs node) s1 s2 hinv1 neighborsGen_subset_nodesOf hvl
          have htemp2' : s2.tempVisited = s.tempVisited ++ [node] := htemp2
          have hnode_t2 : node ∈ s2.tempVisited := by
            rw [htemp2']; simp
          have hnode_nv2 : node ∉ s2.visited := hinv2.disj node hnode_t2
          have hnode_ns2 : node ∉ s2.sortedNodes := fun hc =>
            hnode_nv2 ((hinv2.mem_iff node).mp hc)
          have herase : s2.tempVisited.erase node = s.tempVisited := by
            rw [htemp2', List.erase_append_right _ ht, List.erase_cons_head]
            simp
          refine ⟨?_, herase, ?_, by simp⟩
          · -- TSInv of the final state
            refine ⟨?_, ?_, ?_, ?_, ?_, ?_, ?_⟩
            · intro x
              simp only [List.mem_cons, List.mem_append, List.mem_singleton,
                hinv2.mem_iff x]
              tauto
            · exact List.nodup_cons.mpr ⟨hnode_ns2, hinv2.nodupS⟩
            · rw [herase]; exact hinv.nodupT
            · intro x hx
              rw [herase] at hx
              intro hc
              rcases List.mem_append.mp hc with hc' | hc'
              · exact hinv2.disj x (by rw [htemp2']; exact List.mem_append_left _ hx) hc'
              · rw [List.mem_singleton.mp hc'] at hx; exact ht hx
            · intro x hx
              rcases List.mem_append.mp hx with hx' | hx'
              · exact hinv2.subV x hx'
              · rw [List.mem_singleton.mp hx']; exact hnode
            · intro x hx
              rw [herase] at hx
              exact hinv.subT x hx
            · intro p hp hp1
              rcases List.mem_cons.mp hp1 with hp1' | hp1'
              · -- the newly finished node is the arc source
                have hnbr : p.2 ∈ neighborsGen arcs node := by
                  rw [mem_neighborsGen, ← hp1']
                  exact hp
                have hp2v : p.2 ∈ s2.visited := hmem2 p.2 hnbr
                have hp2s : p.2 ∈ s2.sortedNodes := (hinv2.mem_iff p.2).mpr hp2v
                have hp2ne : p.2 ≠ node := fun hc => hnode_nv2 (hc ▸ hp2v)
                constructor
                · exact List.mem_cons_of_mem _ hp2s
                · dsimp only
                  rw [hp1', List.indexOf_cons_self,
                    List.indexOf_cons_ne _ (Ne.symm hp2ne)]
                  exact Nat.succ_pos _
              · have hp1ne : p.1 ≠ node := fun hc => by
                  rw [hc] at hp1'; exact hnode_ns2 hp1'
                obtain ⟨h2s, hlt⟩ := hinv2.ord p hp hp1'
                have hp2ne : p.2 ≠ node := fun hc => by
                  rw [hc] at h2s; exact hnode_ns2 h2s
                constructor
                · exact List.mem_cons_of_mem _ h2s
                · dsimp only
                  rw [List.indexOf_cons_ne _ (Ne.symm hp1ne), List.indexOf_cons_ne _ (Ne.symm hp2ne)]
                  exact Nat.succ_lt_succ hlt
          · exact hpre2.trans (List.prefix_append _ _)
      | cycle => rw [hvl] at hok; cases hok
      | outOfFuel => rw [hvl] at hok; cases hok

theorem visitOk_all (arcs : List Arc) :
    ∀ fuel, VisitOkP arcs fuel ∧ VisitListOkP arcs fuel := by
  intro fuel
  induction fuel with
  | zero =>
      have h0 : VisitOkP arcs 0 := by
        intro node s s' _ _ hok
        rw [visit_zero] at hok
        cases hok
      exact ⟨h0, visitListOk_of_visitOk arcs 0 h0⟩
  | succ fuel ih =>
      have h1 : VisitOkP arcs (fuel + 1) :=
        visitOk_succ_of_visitListOk arcs fuel ih.2
      exact ⟨h1, visitListOk_of_visitOk arcs (fuel + 1) h1⟩

/-! ### Sufficiency of the chosen fuel -/

theorem length_le_of_nodup_subset {l m : List Nat}
    (hn : l.Nodup) (hs : ∀ x ∈ l, x ∈ m) : l.length ≤ m.length := by
  calc l.length = l.toFinset.card := (List.toFinset_card_of_nodup hn).symm
    _ ≤ m.toFinset.card := by
        apply Finset.card_le_card
        intro x hx
        rw [List.mem_toFinset] at hx ⊢
        exact hs x hx
    _ ≤ m.length := List.toFinset_card_le m

/-- Pushing a fresh graph node onto `temp_visited` preserves the
invariant. -/
theorem TSInv.push {arcs : List Arc} {s : TSState} {node : Nat} (hinv : TSInv arcs s)
    (hv : node ∉ s.visited) (ht : node ∉ s.tempVisited) (hnode : node ∈ nodesOf arcs) :
    TSInv arcs ⟨s.sortedNodes, s.visited, s.tempVisited ++ [node]⟩ := by
  refine ⟨hinv.mem_iff, hinv.nodupS, ?_, ?_, hinv.subV, ?_, hinv.ord⟩
  · exact hinv.nodupT.append (by simp) (by simp [List.disjoint_singleton, ht])
  · intro x hx
    rcases List.mem_append.mp hx with hx' | hx'
    · exact hinv.disj x hx'
    · rw [List.mem_singleton.mp hx']; exact hv
  · intro x hx
    rcases List.mem_append.mp hx with hx' | hx'
    · exact hinv.subT x hx'
    · rw [List.mem_singleton.mp hx']; exact hnode

/-- With enough fuel, `visit` never exhausts it. -/
def VisitFuelP (arcs : List Arc) (fuel : Nat) : Prop :=
  ∀ node s, TSInv arcs s → node ∈ nodesOf arcs →
    (nodesOf arcs).length + 1 ≤ fuel + s.tempVisited.length →
    visit arcs fuel node s ≠ .outOfFuel

/-- With enough fuel, the neighbor loop never exhausts it. -/
def VisitListFuelP (arcs : List Arc) (fuel : Nat) : Prop :=
  ∀ ns s, TSInv arcs s → (∀ n ∈ ns, n ∈ nodesOf arcs) →
    (nodesOf arcs).length + 1 ≤ fuel + s.tempVisited.length →
    visitList arcs fuel ns s ≠ .outOfFuel

theorem visitFuel_zero (arcs : List Arc) : VisitFuelP arcs 0 := by
  intro node s hinv _ hbound
  exfalso
  have := length_le_of_nodup_subset hinv.nodupT hinv.subT
  omega

theorem visitListFuel_of_visitFuel (arcs : List Arc) (fuel : Nat)
    (Hok : VisitOkP arcs fuel) (Hf : VisitFuelP arcs fuel) :
    VisitListFuelP arcs fuel := by
  intro ns
  induction ns with
  | nil =>
      intro s _ _ _
      rw [visitList_nil]
      intro hc; cases hc
  | cons n ns ih =>
      intro s hinv hsub hbound
      rw [visitList_cons]
      cases hv : visit arcs fuel n s with
      | ok s₁ =>
          obtain ⟨hinv₁, htemp₁, _, _⟩ := Hok n s s₁ hinv (hsub n (by simp)) hv
          have := ih s₁ hinv₁ (fun m hm => hsub m (by simp [hm])) (by rw [htemp₁]; exact hbound)
          simpa using this
      | cycle => intro hc; cases hc
      | outOfFuel => exact absurd hv (Hf n s hinv (hsub n (by simp)) hbound)

theorem visitFuel_succ (arcs : List Arc) (fuel : Nat)
    (Hlf : VisitListFuelP arcs fuel) : VisitFuelP arcs (fuel + 1) := by
  intro node s hinv hnode hbound
  rw [visit_succ]
  by_cases hv : node ∈ s.visited
  · rw [if_pos hv]; intro hc; cases hc
  · rw [if_neg hv]
    by_cases ht : node ∈ s.tempVisited
    · rw [if_pos ht]; intro hc; cases hc
    · rw [if_neg ht]
      have hinv1 := hinv.push hv ht hnode
      cases hvl : visitList arcs fuel (neighborsGen arcs node)
          ⟨s.sortedNodes, s.visited, s.tempVisited ++ [node]⟩ with
      | ok s2 => intro hc; cases hc
      | cycle => intro hc; cases hc
      | outOfFuel =>
          exact absurd hvl
            (Hlf (neighborsGen arcs node) _ hinv1 neighborsGen_subset_nodesOf
              (by simp only [List.length_append, List.length_singleton]; omega))

theorem visitFuel_all (arcs : List Arc) :
    ∀ fuel, VisitFuelP arcs fuel ∧ VisitListFuelP arcs fuel := by
  intro fuel
  induction fuel with
  | zero =>
      exact ⟨visitFuel_zero arcs,
        visitListFuel_of_visitFuel arcs 0 (visitOk_all arcs 0).1 (visitFuel_zero arcs)⟩
  | succ fuel ih =>
      have hf : VisitFuelP arcs (fuel + 1) := visitFuel_succ arcs fuel ih.2
      exact ⟨hf,
        visitListFuel_of_visitFuel arcs (fuel + 1) (visitOk_all arcs (fuel + 1)).1 hf⟩

/-! ### The driver loop -/

theorem sortLoop_ok (arcs : List Arc) (fuel : Nat) :
    ∀ ns s s', TSInv arcs s → (∀ n ∈ ns, n ∈ nodesOf arcs) →
      sortLoop arcs fuel ns s = .ok s' →
      TSInv arcs s' ∧ s'.tempVisited = s.tempVisited ∧ s.visited <+: s'.visited ∧
        ∀ n ∈ ns, n ∈ s'.visited := by
  intro ns
  induction ns with
  | nil =>
      intro s s' hinv _ hok
      cases hok
      exact ⟨hinv, rfl, List.prefix_refl _, by simp⟩
  | cons n ns ih =>
      intro s s' hinv hsub hok
      rw [sortLoop] at hok
      by_cases hn : n ∈ s.visited
      · rw [if_pos hn] at hok
        obtain ⟨hinv', htemp', hpre', hmem'⟩ :=
          ih s s' hinv (fun m hm => hsub m (by simp [hm])) hok
        refine ⟨hinv', htemp', hpre', ?_⟩
        intro m hm
        rcases List.mem_cons.mp hm with rfl | hm'
        · exact hpre'.subset hn
        · exact hmem' m hm'
      · rw [if_neg hn] at hok
        cases hv : visit arcs fuel n s with
        | ok s₁ =>
            rw [hv] at hok
            obtain ⟨hinv₁, htemp₁, hpre₁, hmem₁⟩ :=
              (visitOk_all arcs fuel).1 n s s₁ hinv (hsub n (by simp)) hv
            obtain ⟨hinv', htemp', hpre', hmem'⟩ :=
              ih s₁ s' hinv₁ (fun m hm => hsub m (by simp [hm])) hok
            refine ⟨hinv', htemp'.trans htemp₁, hpre₁.trans hpre', ?_⟩
            intro m hm
            rcases List.mem_cons.mp hm with rfl | hm'
            · exact hpre'.subset hmem₁
            · exact hmem' m hm'
        | cycle => rw [hv] at hok; cases hok
        | outOfFuel => rw [hv] at hok; cases hok

theorem sortLoop_not_outOfFuel (arcs : List Arc) :
    ∀ ns s, TSInv arcs s → (∀ n ∈ ns, n ∈ nodesOf arcs) →
      sortLoop arcs (tsFuel arcs) ns s ≠ .outOfFuel := by
  intro ns
  induction ns with
  | nil => intro s _ _ hc; cases hc
  | cons n ns ih =>
      intro s hinv hsub
      rw [sortLoop]
      by_cases hn : n ∈ s.visited
      · rw [if_pos hn]
        exact ih s hinv (fun m hm => hsub m (by simp [hm]))
      · rw [if_neg hn]
        cases hv : visit arcs (tsFuel arcs) n s with
        | ok s₁ =>
            obtain ⟨hinv₁, _, _, _⟩ :=
              (visitOk_all arcs (tsFuel arcs)).1 n s s₁ hinv (hsub n (by simp)) hv
            exact ih s₁ hinv₁ (fun m hm => hsub m (by simp [hm]))
        | cycle => intro hc; cases hc
        | outOfFuel =>
            exact absurd hv
              ((visitFuel_all arcs (tsFuel arcs)).1 n s hinv (hsub n (by simp))
                (by rw [tsFuel]; omega))

/-- The empty DFS state satisfies the invariant. -/
theorem TSInv.initial (arcs : List Arc) : TSInv arcs ⟨[], [], []⟩ := by
  refine ⟨by simp, by simp, by simp, by simp, by simp, by simp, ?_⟩
  intro p _ hp1
  simp at hp1

/-! ### Topological orders and cycles -/

/-- `l` is a topological order of the arc set: it lists each graph node
exactly once and, for every arc `(s, d)`, `s` appears before `d`. -/
def IsTopoOrder (arcs : List Arc) (l : List Nat) : Prop :=
  l.Nodup ∧ (∀ x, x ∈ l ↔ x ∈ nodesOf arcs) ∧
    ∀ p ∈ arcs, List.indexOf p.1 l < List.indexOf p.2 l

/-- The arc relation of the graph. -/
def ArcRel (arcs : List Arc) (a b : Nat) : Prop := (a, b) ∈ arcs

/-- The arc set contains a directed cycle: a nonempty arc walk from
some node back to itself. -/
def HasCycle (arcs : List Arc) : Prop :=
  ∃ v p, List.Chain (ArcRel arcs) v (p ++ [v])

/-- On success, the DFS output is a topological order (partial
correctness of `Dag.topological_sort`). -/
theorem topological_sort_ok {arcs : List Arc} {l : List Nat}
    (h : topological_sort arcs = .ok l) : IsTopoOrder arcs l := by
  rw [topological_sort] at h
  cases hsl : sortLoop arcs (tsFuel arcs) (nodesOf arcs) ⟨[], [], []⟩ with
  | ok s =>
      rw [hsl] at h
      cases h
      obtain ⟨hinv, _, _, hall⟩ :=
        sortLoop_ok arcs (tsFuel arcs) (nodesOf arcs) ⟨[], [], []⟩ s
          (TSInv.initial arcs) (fun _ hn => hn) hsl
      have hmem : ∀ x, x ∈ s.sortedNodes ↔ x ∈ nodesOf arcs := by
        intro x
        rw [hinv.mem_iff x]
        exact ⟨fun hx => hinv.subV x hx, fun hx => hall x hx⟩
      refine ⟨hinv.nodupS, hmem, ?_⟩
      intro p hp
      have h1 : p.1 ∈ s.sortedNodes := (hmem p.1).mpr (fst_mem_nodesOf hp)
      exact (hinv.ord p hp h1).2
  | cycle => rw [hsl] at h; cases h
  | outOfFuel => rw [hsl] at h; cases h

/-- Walking a chain of arcs strictly increases the position in a
topological order. -/
theorem chain_indexOf_lt {arcs : List Arc} {l : List Nat}
    (h : IsTopoOrder arcs l) :
    ∀ (ys : List Nat) (x : Nat), List.Chain (ArcRel arcs) x ys →
      ∀ hne : ys ≠ [], List.indexOf x l < List.indexOf (ys.getLast hne) l := by
  intro ys
  induction ys with
  | nil => intro x _ hne; exact absurd rfl hne
  | cons y ys ih =>
      intro x hch hne
      rw [List.chain_cons] at hch
      obtain ⟨hr, hch'⟩ := hch
      have h1 : List.indexOf x l < List.indexOf y l := h.2.2 (x, y) hr
      cases ys with
      | nil => simpa [List.getLast] using h1
      | cons z zs =>
          have h2 := ih y hch' (by simp)
          exact h1.trans h2

/-- A topologically orderable arc set has no cycle. -/
theorem not_hasCycle_of_isTopoOrder {arcs : List Arc} {l : List Nat}
    (h : IsTopoOrder arcs l) : ¬ HasCycle arcs := by
  rintro ⟨v, p, hchain⟩
  have hne : p ++ [v] ≠ [] := by simp
  have := chain_indexOf_lt h (p ++ [v]) v hchain hne
  rw [List.getLast_append_singleton] at this
  exact Nat.lt_irrefl _ this

/-! ### A raised cycle error witnesses a real cycle -/

/-- Extending an arc chain by one related element. -/
theorem chain_snoc {R : Nat → Nat → Prop} :
    ∀ (l : List Nat) (a b : Nat), List.Chain R a l →
      R ((a :: l).getLast (by simp)) b → List.Chain R a (l ++ [b]) := by
  intro l
  induction l with
  | nil =>
      intro a b _ hr
      exact List.Chain.cons hr List.Chain.nil
  | cons c cs ih =>
      intro a b hch hr
      rw [List.chain_cons] at hch
      exact List.Chain.cons hch.1 (ih c b hch.2 hr)

/-- If the in-progress stack is an arc chain whose last element points
at a node already on the stack, the graph has a cycle. -/
theorem hasCycle_of_temp_revisit {arcs : List Arc} {temp : List Nat} {node : Nat}
    (hchain : List.Chain' (ArcRel arcs) temp)
    (hlink : ∀ hne : temp ≠ [], ArcRel arcs (temp.getLast hne) node)
    (hmem : node ∈ temp) : HasCycle arcs := by
  obtain ⟨t₁, t₂, rfl⟩ := List.append_of_mem hmem
  have hsfx : (node :: t₂) <:+ (t₁ ++ node :: t₂) := ⟨t₁, rfl⟩
  have hch2 : List.Chain (ArcRel arcs) node t₂ := hchain.suffix hsfx
  have hne : t₁ ++ node :: t₂ ≠ [] := by simp
  have hlast : (t₁ ++ node :: t₂).getLast hne = (node :: t₂).getLast (by simp) :=
    List.getLast_append' t₁ (node :: t₂) (by simp)
  have hr : ArcRel arcs ((node :: t₂).getLast (by simp)) node := by
    rw [← hlast]; exact hlink hne
  exact ⟨node, t₂, chain_snoc t₂ node node hch2 hr⟩

/-- A raised cycle error in `visit` implies a real cycle, provided the
stack is an arc chain linked to the visited node. -/
def VisitCycleP (arcs : List Arc) (fuel : Nat) : Prop :=
  ∀ node s, TSInv arcs s → node ∈ nodesOf arcs →
    List.Chain' (ArcRel arcs) s.tempVisited →
    (∀ hne : s.tempVisited ≠ [], ArcRel arcs (s.tempVisited.getLast hne) node) →
    visit arcs fuel node s = .cycle → HasCycle arcs

/-- The analogous statement for the neighbor loop. -/
def VisitListCycleP (arcs : List Arc) (fuel : Nat) : Prop :=
  ∀ ns s, TSInv arcs s → (∀ n ∈ ns, n ∈ nodesOf arcs) →
    List.Chain' (ArcRel arcs) s.tempVisited →
    (∀ n ∈ ns, ∀ hne : s.tempVisited ≠ [], ArcRel arcs (s.tempVisited.getLast hne) n) →
    visitList arcs fuel ns s = .cycle → HasCycle arcs

theorem visitListCycle_of_visitCycle (arcs : List Arc) (fuel : Nat)
    (Hok : VisitOkP arcs fuel) (Hc : VisitCycleP arcs fuel) :
    VisitListCycleP arcs fuel := by
  intro ns
  induction ns with
  | nil =>
      intro s _ _ _ _ hcy
      rw [visitList_nil] at hcy
      cases hcy
  | cons n ns ih =>
      intro s hinv hsub hchain hlink hcy
      rw [visitList_cons] at hcy
      cases hv : visit arcs fuel n s with
      | ok s₁ =>
          rw [hv] at hcy
          obtain ⟨hinv₁, htemp₁, _, _⟩ := Hok n s s₁ hinv (hsub n (by simp)) hv
          exact ih s₁ hinv₁ (fun m hm => hsub m (by simp [hm]))
            (by rw [htemp₁]; exact hchain)
            (fun m hm hne => by
              have : s₁.tempVisited.getLast hne =
                  s.tempVisited.getLast (by rw [← htemp₁]; exact hne) := by
                congr 1
              rw [this]
              exact hlink m (by simp [hm]) _)
            hcy
      | cycle =>
          exact Hc n s hinv (hsub n (by simp)) hchain (fun hne => hlink n (by simp) hne) hv
      | outOfFuel => rw [hv] at hcy; cases hcy

theorem visitCycle_succ (arcs : List Arc) (fuel : Nat)
    (Hlc : VisitListCycleP arcs fuel) : VisitCycleP arcs (fuel + 1) := by
  intro node s hinv hnode hchain hlink hcy
  rw [visit_succ] at hcy
  by_cases hv : node ∈ s.visited
  · rw [if_pos hv] at hcy; cases hcy
  · rw [if_neg hv] at hcy
    by_cases ht : node ∈ s.tempVisited
    · exact hasCycle_of_temp_revisit hchain hlink ht
    · rw [if_neg ht] at hcy
      cases hvl : visitList arcs fuel (neighborsGen arcs node)
          ⟨s.sortedNodes, s.visited, s.tempVisited ++ [node]⟩ with
      | ok s2 => rw [hvl] at hcy; cases hcy
      | cycle =>
          have hinv1 := hinv.push hv ht hnode
          refine Hlc (neighborsGen arcs node) _ hinv1 neighborsGen_subset_nodesOf ?_ ?_ hvl
          · -- the extended stack is still an arc chain
            show List.Chain' (ArcRel arcs) (s.tempVisited ++ [node])
            rw [List.chain'_append]
            refine ⟨hchain, by simp, ?_⟩
            intro x hx y hy
            rw [List.head?_cons, Option.mem_some_iff] at hy
            subst hy
            cases htemp : s.tempVisited with
            | nil => rw [htemp] at hx; simp at hx
            | cons a as =>
                have hne : s.tempVisited ≠ [] := by rw [htemp]; simp
                rw [List.getLast?_eq_getLast_of_ne_nil hne, Option.mem_some_iff] at hx
                subst hx
                exact hlink hne
          · -- every neighbor is linked from the new stack top
            intro m hm hne
            show ArcRel arcs ((s.tempVisited ++ [node]).getLast hne) m
            rw [List.getLast_append_singleton]
            exact mem_neighborsGen.mp hm
      | outOfFuel => rw [hvl] at hcy; cases hcy

theorem visitCycle_all (arcs : List Arc) :
    ∀ fuel, VisitCycleP arcs fuel ∧ VisitListCycleP arcs fuel := by
  intro fuel
  induction fuel with
  | zero =>
      have h0 : VisitCycleP arcs 0 := by
        intro node s _ _ _ _ hcy
        rw [visit_zero] at hcy
        cases hcy
      exact ⟨h0, visitListCycle_of_visitCycle arcs 0 (visitOk_all arcs 0).1 h0⟩
  | succ fuel ih =>
      have h1 : VisitCycleP arcs (fuel + 1) := visitCycle_succ arcs fuel ih.2
      exact ⟨h1, visitListCycle_of_visitCycle arcs (fuel + 1) (visitOk_all arcs (fuel + 1)).1 h1⟩

theorem sortLoop_cycle (arcs : List Arc) (fuel : Nat) :
    ∀ ns s, TSInv arcs s → (∀ n ∈ ns, n ∈ nodesOf arcs) → s.tempVisited = [] →
      sortLoop arcs fuel ns s = .cycle → HasCycle arcs := by
  intro ns
  induction ns with
  | nil =>
      intro s _ _ _ hcy
      cases hcy
  | cons n ns ih =>
      intro s hinv hsub htemp hcy
      rw [sortLoop] at hcy
      by_cases hn : n ∈ s.visited
      · rw [if_pos hn] at hcy
        exact ih s hinv (fun m hm => hsub m (by simp [hm])) htemp hcy
      · rw [if_neg hn] at hcy
        cases hv : visit arcs fuel n s with
        | ok s₁ =>
            rw [hv] at hcy
            obtain ⟨hinv₁, htemp₁, _, _⟩ :=
              (visitOk_all arcs fuel).1 n s s₁ hinv (hsub n (by simp)) hv
            exact ih s₁ hinv₁ (fun m hm => hsub m (by simp [hm]))
              (htemp₁.trans htemp) hcy
        | cycle =>
            refine (visitCycle_all arcs fuel).1 n s hinv (hsub n (by simp)) ?_ ?_ hv
            · rw [htemp]; exact List.chain'_nil
            · intro hne; exact absurd htemp hne
        | outOfFuel => rw [hv] at hcy; cases hcy

/-- `Dag.topological_sort` raises the cycle error exactly on cyclic
arc sets. -/
theorem topological_sort_error_iff (arcs : List Arc) :
    topological_sort arcs = .error .cycleError ↔ HasCycle arcs := by
  constructor
  · intro h
    rw [topological_sort] at h
    cases hsl : sortLoop arcs (tsFuel arcs) (nodesOf arcs) ⟨[], [], []⟩ with
    | ok s => rw [hsl] at h; cases h
    | cycle =>
        exact sortLoop_cycle arcs (tsFuel arcs) (nodesOf arcs) ⟨[], [], []⟩
          (TSInv.initial arcs) (fun _ hn => hn) rfl hsl
    | outOfFuel =>
        exact absurd hsl
          (sortLoop_not_outOfFuel arcs (nodesOf arcs) ⟨[], [], []⟩
            (TSInv.initial arcs) (fun _ hn => hn))
  · intro hcyc
    cases hsl : sortLoop arcs (tsFuel arcs) (nodesOf arcs) ⟨[], [], []⟩ with
    | ok s =>
        exfalso
        have hok : topological_sort arcs = .ok s.sortedNodes := by
          rw [topological_sort, hsl]
        exact not_hasCycle_of_isTopoOrder (topological_sort_ok hok) hcyc
    | cycle => rw [topological_sort, hsl]
    | outOfFuel =>
        exact absurd hsl
          (sortLoop_not_outOfFuel arcs (nodesOf arcs) ⟨[], [], []⟩
            (TSInv.initial arcs) (fun _ hn => hn))

/-! ### `Dag.add_arc` and the dependency queries -/

/-- `Dag.add_arc` (`dag.py` lines 54–62) as a state transformer: the
pair holds the outcome (the returned `Dag` or the raised error) and
the post-call state of `self.arcs`.  The membership guard (line 55) is
checked first; then the whole candidate arc set is revalidated by
`topological_sort` (lines 58–59); only on success is `self.arcs`
reassigned (line 61). -/
def Dag.add_arcM (d : Dag) (src dst : Nat) : Except DagErr Dag × Dag :=
  if nodesOf d.arcs ≠ [] ∧ src ∉ nodesOf d.arcs ∧ dst ∉ nodesOf d.arcs then
    (.error .valueError, d)
  else
    match topological_sort (d.arcs ++ [(src, dst)]) with
    | .error e => (.error e, d)
    | .ok _ => (.ok ⟨d.arcs ++ [(src, dst)]⟩, ⟨d.arcs ++ [(src, dst)]⟩)

/-- A sequence of `add_arc` calls: each call leaves the graph in its
post-call state, whether it succeeded or raised. -/
def add_arc_run (d : Dag) (reqs : List (Nat × Nat)) : Dag :=
  reqs.foldl (fun d r => (Dag.add_arcM d r.1 r.2).2) d

/-- `Dag._is_in_dag` (`dag.py` lines 102–104); the raised `ValueError`
is the spec's `NotInGraph` error. -/
def Dag._is_in_dag (d : Dag) (node : Nat) : Except DagErr Unit :=
  if node ∈ nodesOf d.arcs then .ok () else .error .notInGraph

/-- `Dag.direct_dependencies` (`dag.py` lines 106–107): sources of
arcs pointing at `node`; note there is no membership check. -/
def direct_dependencies (arcs : List Arc) (node : Nat) : List Nat :=
  (arcs.filter (fun a => a.2 == node)).map Prod.fst

/-- The method form of `direct_dependencies`. -/
def Dag.direct_dependencies (d : Dag) (node : Nat) : List Nat :=
  PocDag.direct_dependencies d.arcs node

/-- `Dag.neighbors` (`dag.py` lines 109–111): membership is checked
first, then the destinations of arcs leaving `node` are returned. -/
def Dag.neighbors (d : Dag) (node : Nat) : Except DagErr (List Nat) :=
  match d._is_in_dag node with
  | .error e => .error e
  | .ok _ => .ok ((d.arcs.filter (fun a => a.1 == node)).map Prod.snd)

/-- `Dag.level` (`dag.py` lines 134–138): membership is checked first;
`-1` when the node is not on the path, else the first index. -/
def Dag.level (d : Dag) (node : Nat) (path : List Nat) : Except DagErr Int :=
  match d._is_in_dag node with
  | .error e => .error e
  | .ok _ => if node ∉ path then .ok (-1) else .ok (List.indexOf node path)

/-! ### The node state machine (`node.py`) -/

/-- `NodeStateEnum` (`enums.py`). -/
inductive NodeStateEnum
  | idle
  | running
  | complete
deriving DecidableEq, Repr

/-- A stored result object: the runtime kind tag (the concrete Python
`Result` class) and a payload.  `isinstance(result, self.result_kind)`
(`node.py` line 67) is modelled as equality of kind tags. -/
structure ResultV where
  kind : Nat
  val : Nat
deriving DecidableEq, Repr

/-- The observable actions of a single `Node.start` invocation, in
program order. -/
inductive NEv
  | setState (st : NodeStateEnum)
  | readRes (depLabel : Nat)
  | callbackEv
  | writeRes (label : Nat)
deriving DecidableEq, Repr

/-- The exceptions that can escape `Node.start`: a missing result key
during a dependency read, an exception from the user callback, or the
`TypeError` raised when the result does not match the declared kind
(the spec's `ResultTypeMismatch`). -/
inductive StartErr
  | readError
  | callbackError
  | typeMismatch
deriving DecidableEq, Repr

/-- `Node` (`node.py` lines 25–41): label, declared result kind, the
`use_dependency_results` switch, and the callback (which receives the
dependency-label-to-result mapping and may raise). -/
structure NodeDef where
  label : Nat
  result_kind : Nat
  use_dependency_results : Bool
  callback : List (Nat × ResultV) → Except Unit ResultV

/-- The result store contents: label-keyed, latest write first
(`MemoryResultIO._result_storage`, `result.py` lines 72–81). -/
abbrev Store := List (Nat × ResultV)

/-- `read_result(node_label, result_kind)`: lookup by label; a missing
key raises (`KeyError` / the spec's `ResultNotFound`). -/
def read_result (store : Store) (label : Nat) : Option ResultV :=
  store.lookup label

/-- `write_result(result, node_label)`: store keyed by the label. -/
def write_result (store : Store) (r : ResultV) (label : Nat) : Store :=
  (label, r) :: store

/-- The dependency-read comprehension of `Node.start` (`node.py` lines
60–63): read each dependency's result in order, propagating the first
failure; returns the emitted read events and the built mapping. -/
def readDeps (store : Store) : List NodeDef → List NEv × Except StartErr (List (Nat × ResultV))
  | [] => ([], .ok [])
  | d :: ds =>
      match read_result store d.label with
      | none => ([.readRes d.label], .error .readError)
      | some r =>
          let rest := readDeps store ds
          (.readRes d.label :: rest.1,
           match rest.2 with
           | .ok m => .ok ((d.label, r) :: m)
           | .error e => .error e)

/-- `Node.start` (`node.py` lines 50–73) together with its
`update_node_state` wrapper (lines 8–22): set RUNNING, read the
dependency results (skipped when `use_dependency_results` is false),
invoke the callback on the mapping, check the declared result kind,
write the result, set COMPLETE.  Returns the emitted event trace, the
node's final state and the outcome (new store or escaped exception). -/
def Node.start (node : NodeDef) (dependencies : List NodeDef) (store : Store) :
    List NEv × NodeStateEnum × Except StartErr Store :=
  let reads :=
    if node.use_dependency_results then readDeps store dependencies
    else ([], .ok [])
  match reads.2 with
  | .error e => ([.setState .running] ++ reads.1, .running, .error e)
  | .ok depResults =>
      match node.callback depResults with
      | .error _ =>
          ([.setState .running] ++ reads.1 ++ [.callbackEv], .running, .error .callbackError)
      | .ok result =>
          if result.kind ≠ node.result_kind then
            ([.setState .running] ++ reads.1 ++ [.callbackEv], .running, .error .typeMismatch)
          else
            ([.setState .running] ++ reads.1 ++
               [.callbackEv, .writeRes node.label, .setState .complete],
             .complete, .ok (write_result store result node.label))

/-- Recognizer for write events of a node run. -/
def isWriteNEv : NEv → Bool
  | .writeRes _ => true
  | _ => false

/-- The state transition recorded by an event, if any. -/
def nevState : NEv → Option NodeStateEnum
  | .setState st => some st
  | _ => none

/-! ### Scratch-area hooks (`conduit.py` `start` vs `result.py`) -/

/-- The attribute names present on a `LocalResultIO` instance: the
class body (`result.py` lines 136–147), the `ResultIO` base (line 61)
and the methods injected by the `LocalFsCrudMeta` metaclass (lines
90–96). -/
def localResultIO_attrs : List String :=
  ["temp_location", "file_extension", "write_result", "read_result",
   "use_transfer_results", "read_results", "create_temp_location",
   "delete_temp_location", "file_path", "transfer_results"]

/-- The store-lifecycle calls `AsyncConduit.start` (`conduit.py` lines
128–141) and `ThreadPoolConduit.start` (lines 186–199) issue around a
run: each is guarded by `hasattr(self.result_io, name)` for the probed
name, before the run and in the `finally` block. -/
def conduit_start_hook_calls (attrs : List String) : List String :=
  (if attrs.contains "delete_temp_directory" then ["delete_temp_directory"] else []) ++
  (if attrs.contains "create_temp_directory" then ["create_temp_directory"] else []) ++
  (if attrs.contains "delete_temp_directory" then ["delete_temp_directory"] else [])

/-- Whether a store exposes the optional create/delete scratch-area
operations (the metaclass-injected `create_temp_location` /
`delete_temp_location`). -/
def scratch_ops_exposed (attrs : List String) : Bool :=
  attrs.contains "create_temp_location" && attrs.contains "delete_temp_location"

/-! ### Scheduler run traces (`conduit.py`) -/

/-- Scheduler-level events of a single run. -/
inductive SEv
  | submit (n : Nat)
  | beginNode (n : Nat)
  | readRes (n dep : Nat)
  | writeRes (n : Nat)
  | completeNode (n : Nat)
deriving DecidableEq, Repr

/-- The node state visible after a trace prefix, as maintained by
`update_node_state` (`node.py` lines 8–22): RUNNING is set when the
node begins, COMPLETE when its body (including the write) returned. -/
def stateAfter (tr : List SEv) (n : Nat) : NodeStateEnum :=
  if SEv.completeNode n ∈ tr then .complete
  else if SEv.beginNode n ∈ tr then .running
  else .idle

/-- `Conduit.is_node_ready` (`conduit.py` lines 37–38). -/
def is_node_ready (arcs : List Arc) (st : Nat → NodeStateEnum) (node : Nat) : Bool :=
  (direct_dependencies arcs node).all (fun dep => st dep == NodeStateEnum.complete)

/-- `Conduit.are_all_nodes_complete` (`conduit.py` lines 34–35). -/
def are_all_nodes_complete (arcs : List Arc) (st : Nat → NodeStateEnum) : Bool :=
  (nodesOf arcs).all (fun n => st n == NodeStateEnum.complete)

/-- The traces realizable by the scheduler engines (`AsyncConduit` and
`ThreadPoolConduit`).  A node is submitted at most once (the
`_running_nodes` / `_submitted_nodes` guards); a `dag.sources` member
is launched unconditionally (`conduit.py` lines 117–121 and 156–160),
any other node only when `is_node_ready` holds at submission time
(lines 100–104 and 163–169).  Within a node, events follow
`Node.start`: RUNNING first, then the dependency reads (only when the
node uses dependency results), then its single write, and COMPLETE
only after the write returned. -/
inductive ValidTrace (arcs : List Arc) (useDeps : Nat → Bool) : List SEv → Prop
  | nil : ValidTrace arcs useDeps []
  | submit {tr n} : ValidTrace arcs useDeps tr →
      n ∈ nodesOf arcs →
      SEv.submit n ∉ tr →
      (n ∈ sourcesOf arcs ∨ is_node_ready arcs (stateAfter tr) n = true) →
      ValidTrace arcs useDeps (tr ++ [SEv.submit n])
  | beginNode {tr n} : ValidTrace arcs useDeps tr →
      SEv.submit n ∈ tr →
      SEv.beginNode n ∉ tr →
      ValidTrace arcs useDeps (tr ++ [SEv.beginNode n])
  | readRes {tr n dep} : ValidTrace arcs useDeps tr →
      SEv.beginNode n ∈ tr →
      useDeps n = true →
      dep ∈ direct_dependencies arcs n →
      SEv.readRes n dep ∉ tr →
      SEv.writeRes n ∉ tr →
      ValidTrace arcs useDeps (tr ++ [SEv.readRes n dep])
  | writeRes {tr n} : ValidTrace arcs useDeps tr →
      SEv.beginNode n ∈ tr →
      SEv.writeRes n ∉ tr →
      ValidTrace arcs useDeps (tr ++ [SEv.writeRes n])
  | completeNode {tr n} : ValidTrace arcs useDeps tr →
      SEv.writeRes n ∈ tr →
      SEv.completeNode n ∉ tr →
      ValidTrace arcs useDeps (tr ++ [SEv.completeNode n])

/-- Recognizer for scheduler-level write events. -/
def isWriteSEv : SEv → Bool
  | .writeRes _ => true
  | _ => false

/-! ### Lemmas about `add_arc` -/

/-- An empty arc set has no cycle. -/
theorem not_hasCycle_nil : ¬ HasCycle ([] : List Arc) := by
  rintro ⟨v, p, hchain⟩
  cases p with
  | nil =>
      rw [List.nil_append, List.chain_cons] at hchain
      exact absurd hchain.1 (by simp [ArcRel])
  | cons q qs =>
      rw [List.cons_append, List.chain_cons] at hchain
      exact absurd hchain.1 (by simp [ArcRel])

/-- Whatever `add_arc` does, the stored arc set stays acyclic. -/
theorem add_arcM_post_acyclic (d : Dag) (src dst : Nat)
    (h : ¬ HasCycle d.arcs) : ¬ HasCycle ((Dag.add_arcM d src dst).2).arcs := by
  rw [Dag.add_arcM]
  by_cases hg : nodesOf d.arcs ≠ [] ∧ src ∉ nodesOf d.arcs ∧ dst ∉ nodesOf d.arcs
  · rw [if_pos hg]; exact h
  · rw [if_neg hg]
    cases hts : topological_sort (d.arcs ++ [(src, dst)]) with
    | error e => exact h
    | ok l => exact not_hasCycle_of_isTopoOrder (topological_sort_ok hts)

theorem add_arc_run_acyclic : ∀ (reqs : List (Nat × Nat)) (d : Dag),
    ¬ HasCycle d.arcs → ¬ HasCycle (add_arc_run d reqs).arcs := by
  intro reqs
  induction reqs with
  | nil => intro d h; exact h
  | cons r rs ih =>
      intro d h
      exact ih _ (add_arcM_post_acyclic d r.1 r.2 h)

/-- A failing `add_arc` raises and leaves the arc set untouched. -/
theorem add_arcM_cyclic_fails (d : Dag) (src dst : Nat)
    (hcyc : HasCycle (d.arcs ++ [(src, dst)])) :
    ∃ e, Dag.add_arcM d src dst = (.error e, d) := by
  rw [Dag.add_arcM]
  by_cases hg : nodesOf d.arcs ≠ [] ∧ src ∉ nodesOf d.arcs ∧ dst ∉ nodesOf d.arcs
  · rw [if_pos hg]; exact ⟨.valueError, rfl⟩
  · rw [if_neg hg, (topological_sort_error_iff _).mpr hcyc]
    exact ⟨.cycleError, rfl⟩

/-- When the membership guard passes, a cycle-creating `add_arc`
raises precisely the cycle error. -/
theorem add_arcM_cyclic_cycleError (d : Dag) (src dst : Nat)
    (hguard : nodesOf d.arcs = [] ∨ src ∈ nodesOf d.arcs ∨ dst ∈ nodesOf d.arcs)
    (hcyc : HasCycle (d.arcs ++ [(src, dst)])) :
    Dag.add_arcM d src dst = (.error .cycleError, d) := by
  rw [Dag.add_arcM]
  have hg : ¬ (nodesOf d.arcs ≠ [] ∧ src ∉ nodesOf d.arcs ∧ dst ∉ nodesOf d.arcs) := by
    rcases hguard with h | h | h
    · exact fun hc => hc.1 h
    · exact fun hc => hc.2.1 h
    · exact fun hc => hc.2.2 h
  rw [if_neg hg, (topological_sort_error_iff _).mpr hcyc]

/-! ### Lemmas about the dependency queries -/

theorem direct_dependencies_not_mem {arcs : List Arc} {node : Nat}
    (h : node ∉ nodesOf arcs) : direct_dependencies arcs node = [] := by
  rw [direct_dependencies]
  have : arcs.filter (fun a => a.2 == node) = [] := by
    rw [List.filter_eq_nil_iff]
    intro a ha hc
    rw [beq_iff_eq] at hc
    exact h (hc ▸ snd_mem_nodesOf ha)
  rw [this, List.map_nil]

/-! ### Lemmas about `Node.start` -/

theorem readDeps_trace_reads (store : Store) :
    ∀ ds : List NodeDef, ∀ e ∈ (readDeps store ds).1, ∃ l, e = NEv.readRes l := by
  intro ds
  induction ds with
  | nil => intro e he; simp [readDeps] at he
  | cons d ds ih =>
      intro e he
      rw [readDeps] at he
      cases hr : read_result store d.label with
      | none =>
          rw [hr] at he
          simp only [List.mem_singleton] at he
          exact ⟨d.label, he⟩
      | some r =>
          rw [hr] at he
          simp only [List.mem_cons] at he
          rcases he with rfl | he'
          · exact ⟨d.label, rfl⟩
          · exact ih e he'

theorem readDeps_ok_trace (store : Store) :
    ∀ (ds : List NodeDef) (m : List (Nat × ResultV)), (readDeps store ds).2 = .ok m →
      (readDeps store ds).1 = ds.map (fun d => NEv.readRes d.label) := by
  intro ds
  induction ds with
  | nil => intro m _; simp [readDeps]
  | cons d ds ih =>
      intro m hok
      rw [readDeps] at hok ⊢
      cases hr : read_result store d.label with
      | none => rw [hr] at hok; exact Except.noConfusion hok
      | some r =>
          rw [hr] at hok
          show NEv.readRes d.label :: (readDeps store ds).1 =
            List.map (fun d => NEv.readRes d.label) (d :: ds)
          have hok' : (match (readDeps store ds).2 with
              | Except.ok m' => (Except.ok ((d.label, r) :: m') :
                  Except StartErr (List (Nat × ResultV)))
              | Except.error e => Except.error e) = Except.ok m := hok
          rw [List.map_cons]
          cases hrest : (readDeps store ds).2 with
          | ok m' => rw [ih m' hrest]
          | error e => rw [hrest] at hok'; exact Except.noConfusion hok'

theorem readDeps_error_readError (store : Store) :
    ∀ (ds : List NodeDef) (e : StartErr), (readDeps store ds).2 = .error e →
      e = .readError := by
  intro ds
  induction ds with
  | nil => intro e he; exact Except.noConfusion he
  | cons d ds ih =>
      intro e he
      rw [readDeps] at he
      cases hr : read_result store d.label with
      | none =>
          rw [hr] at he
          injection he with he'
          exact he'.symm
      | some r =>
          rw [hr] at he
          have he' : (match (readDeps store ds).2 with
              | Except.ok m' => (Except.ok ((d.label, r) :: m') :
                  Except StartErr (List (Nat × ResultV)))
              | Except.error e => Except.error e) = Except.error e := he
          cases hrest : (readDeps store ds).2 with
          | ok m' => rw [hrest] at he'; exact Except.noConfusion he'
          | error e' =>
              rw [hrest] at he'
              injection he' with he''
              rw [← he'']
              exact ih e' hrest

theorem countP_isWrite_of_reads (l : List NEv)
    (h : ∀ e ∈ l, ∃ lab, e = NEv.readRes lab) : l.countP isWriteNEv = 0 := by
  rw [List.countP_eq_zero]
  intro e he
  obtain ⟨lab, rfl⟩ := h e he
  simp [isWriteNEv]

theorem filterMap_nevState_of_reads (l : List NEv)
    (h : ∀ e ∈ l, ∃ lab, e = NEv.readRes lab) : l.filterMap nevState = [] := by
  rw [List.filterMap_eq_nil_iff]
  intro e he
  obtain ⟨lab, rfl⟩ := h e he
  simp [nevState]

/-- `Node.start`, success path with dependency results in use. -/
theorem node_start_ok_trace (node : NodeDef) (deps : List NodeDef) (store : Store)
    (m : List (Nat × ResultV)) (r : ResultV)
    (huse : node.use_dependency_results = true)
    (hm : (readDeps store deps).2 = .ok m)
    (hcb : node.callback m = .ok r)
    (hk : r.kind = node.result_kind) :
    Node.start node deps store =
      ([NEv.setState .running] ++ (readDeps store deps).1 ++
         [NEv.callbackEv, NEv.writeRes node.label, NEv.setState .complete],
       .complete, .ok (write_result store r node.label)) := by
  rw [Node.start, huse]
  simp only [if_true]
  rw [hm]
  dsimp only
  rw [hcb]
  dsimp only
  rw [if_neg (by simp [hk])]

/-- `Node.start`, result-kind mismatch path. -/
theorem node_start_mismatch (node : NodeDef) (deps : List NodeDef) (store : Store)
    (m : List (Nat × ResultV)) (r : ResultV)
    (huse : node.use_dependency_results = true)
    (hm : (readDeps store deps).2 = .ok m)
    (hcb : node.callback m = .ok r)
    (hk : r.kind ≠ node.result_kind) :
    Node.start node deps store =
      ([NEv.setState .running] ++ (readDeps store deps).1 ++ [NEv.callbackEv],
       .running, .error .typeMismatch) := by
  rw [Node.start, huse]
  simp only [if_true]
  rw [hm]
  dsimp only
  rw [hcb]
  dsimp only
  rw [if_pos (by simp [hk])]

/-- `Node.start`, callback-raises path. -/
theorem node_start_cb_error (node : NodeDef) (deps : List NodeDef) (store : Store)
    (m : List (Nat × ResultV)) (u : Unit)
    (huse : node.use_dependency_results = true)
    (hm : (readDeps store deps).2 = .ok m)
    (hcb : node.callback m = .error u) :
    Node.start node deps store =
      ([NEv.setState .running] ++ (readDeps store deps).1 ++ [NEv.callbackEv],
       .running, .error .callbackError) := by
  rw [Node.start, huse]
  simp only [if_true]
  rw [hm]
  dsimp only
  rw [hcb]

/-- `Node.start`, dependency-read failure path. -/
theorem node_start_read_error (node : NodeDef) (deps : List NodeDef) (store : Store)
    (e : StartErr)
    (huse : node.use_dependency_results = true)
    (hm : (readDeps store deps).2 = .error e) :
    Node.start node deps store =
      ([NEv.setState .running] ++ (readDeps store deps).1, .running, .error e) := by
  rw [Node.start, huse]
  simp only [if_true]
  rw [hm]

/-- `Node.start` with `use_dependency_results=False`: the callback is
applied to the empty mapping and no read occurs; success path. -/
theorem node_start_nouse_ok (node : NodeDef) (deps : List NodeDef) (store : Store)
    (r : ResultV)
    (huse : node.use_dependency_results = false)
    (hcb : node.callback [] = .ok r)
    (hk : r.kind = node.result_kind) :
    Node.start node deps store =
      ([NEv.setState .running, NEv.callbackEv, NEv.writeRes node.label,
         NEv.setState .complete],
       .complete, .ok (write_result store r node.label)) := by
  rw [Node.start, huse]
  simp only [Bool.false_eq_true, if_false]
  rw [hcb]
  dsimp only
  rw [if_neg (by simp [hk])]
  rfl

/-- `Node.start` with `use_dependency_results=False`, callback raises. -/
theorem node_start_nouse_cb_error (node : NodeDef) (deps : List NodeDef) (store : Store)
    (u : Unit)
    (huse : node.use_dependency_results = false)
    (hcb : node.callback [] = .error u) :
    Node.start node deps store =
      ([NEv.setState .running, NEv.callbackEv], .running, .error .callbackError) := by
  rw [Node.start, huse]
  simp only [Bool.false_eq_true, if_false]
  rw [hcb]
  rfl

/-- `Node.start` with `use_dependency_results=False`, kind mismatch. -/
theorem node_start_nouse_mismatch (node : NodeDef) (deps : List NodeDef) (store : Store)
    (r : ResultV)
    (huse : node.use_dependency_results = false)
    (hcb : node.callback [] = .ok r)
    (hk : r.kind ≠ node.result_kind) :
    Node.start node deps store =
      ([NEv.setState .running, NEv.callbackEv], .running, .error .typeMismatch) := by
  rw [Node.start, huse]
  simp only [Bool.false_eq_true, if_false]
  rw [hcb]
  dsimp only
  rw [if_pos (by simp [hk])]
  rfl

/-! ### Lemmas about scheduler traces -/

theorem stateAfter_eq_complete (tr : List SEv) (d : Nat) :
    stateAfter tr d = .complete ↔ SEv.completeNode d ∈ tr := by
  rw [stateAfter]
  by_cases hc : SEv.completeNode d ∈ tr
  · rw [if_pos hc]; simp [hc]
  · rw [if_neg hc]
    by_cases hb : SEv.beginNode d ∈ tr
    · rw [if_pos hb]; simp [hc]
    · rw [if_neg hb]; simp [hc]

/-- In an acyclic graph, a member of `dag.sources` has no direct
dependencies. -/
theorem sourcesOf_no_deps {arcs : List Arc} (hacyc : ¬ HasCycle arcs) :
    ∀ n ∈ sourcesOf arcs, direct_dependencies arcs n = [] := by
  intro n hn
  rw [sourcesOf, mem_remove_duplicates] at hn
  simp only [List.mem_map, List.mem_filter] at hn
  obtain ⟨a, ⟨ha, hcond⟩, ha1⟩ := hn
  rw [List.all_eq_true] at hcond
  rw [direct_dependencies]
  have hfil : arcs.filter (fun b => b.2 == n) = [] := by
    rw [List.filter_eq_nil_iff]
    intro b hb hc
    rw [beq_iff_eq] at hc
    have := hcond b hb
    rw [Bool.or_eq_true, beq_iff_eq, ha1, Bool.not_eq_true'] at this
    rcases this with h1 | h2
    · -- `b` would be the self-loop `(n, n)`
      apply hacyc
      refine ⟨n, [], ?_⟩
      rw [List.nil_append]
      refine List.Chain.cons ?_ List.Chain.nil
      show (n, n) ∈ arcs
      have : b = (n, n) := by
        cases b; simp_all
      rwa [this] at hb
    · -- `(b.1, n)` claimed absent, but `b` itself is such an arc
      exfalso
      have hbn : (b.1, n) ∈ arcs := by
        have : b = (b.1, n) := by
          cases b; simp_all
        rwa [this] at hb
      have h3 : arcs.contains (b.1, n) = true := List.elem_eq_true_of_mem hbn
      rw [h3] at h2
      cases h2
  rw [hfil, List.map_nil]

theorem validTrace_complete_write {arcs : List Arc} {u : Nat → Bool} :
    ∀ {tr}, ValidTrace arcs u tr →
      ∀ {n}, SEv.completeNode n ∈ tr → SEv.writeRes n ∈ tr := by
  intro tr h
  induction h with
  | nil => intro n hn; simp at hn
  | submit h hmem hnot hready ih =>
      intro n hn
      rcases List.mem_append.mp hn with h' | h'
      · exact List.mem_append_left _ (ih h')
      · simp at h'
  | beginNode h hs hnot ih =>
      intro n hn
      rcases List.mem_append.mp hn with h' | h'
      · exact List.mem_append_left _ (ih h')
      · simp at h'
  | readRes h hb hu hdep hnr hnw ih =>
      intro n hn
      rcases List.mem_append.mp hn with h' | h'
      · exact List.mem_append_left _ (ih h')
      · simp at h'
  | writeRes h hb hnot ih =>
      intro n hn
      rcases List.mem_append.mp hn with h' | h'
      · exact List.mem_append_left _ (ih h')
      · simp at h'
  | completeNode h hw hnot ih =>
      intro n hn
      rcases List.mem_append.mp hn with h' | h'
      · exact List.mem_append_left _ (ih h')
      · simp only [List.mem_singleton, SEv.completeNode.injEq] at h'
        subst h'
        exact List.mem_append_left _ hw

theorem validTrace_begin_submit {arcs : List Arc} {u : Nat → Bool} :
    ∀ {tr}, ValidTrace arcs u tr →
      ∀ {n}, SEv.beginNode n ∈ tr → SEv.submit n ∈ tr := by
  intro tr h
  induction h with
  | nil => intro n hn; simp at hn
  | submit h hmem hnot hready ih =>
      intro n hn
      rcases List.mem_append.mp hn with h' | h'
      · exact List.mem_append_left _ (ih h')
      · simp at h'
  | beginNode h hs hnot ih =>
      intro n hn
      rcases List.mem_append.mp hn with h' | h'
      · exact List.mem_append_left _ (ih h')
      · simp only [List.mem_singleton, SEv.beginNode.injEq] at h'
        subst h'
        exact List.mem_append_left _ hs
  | readRes h hb hu hdep hnr hnw ih =>
      intro n hn
      rcases List.mem_append.mp hn with h' | h'
      · exact List.mem_append_left _ (ih h')
      · simp at h'
  | writeRes h hb hnot ih =>
      intro n hn
      rcases List.mem_append.mp hn with h' | h'
      · exact List.mem_append_left _ (ih h')
      · simp at h'
  | completeNode h hw hnot ih =>
      intro n hn
      rcases List.mem_append.mp hn with h' | h'
      · exact List.mem_append_left _ (ih h')
      · simp at h'

theorem validTrace_submit_deps_complete {arcs : List Arc} {u : Nat → Bool}
    (hacyc : ¬ HasCycle arcs) :
    ∀ {tr}, ValidTrace arcs u tr →
      ∀ {n}, SEv.submit n ∈ tr →
        ∀ dep ∈ direct_dependencies arcs n, SEv.completeNode dep ∈ tr := by
  intro tr h
  induction h with
  | nil => intro n hn; simp at hn
  | submit h hmem hnot hready ih =>
      intro n hn dep hdep
      rcases List.mem_append.mp hn with h' | h'
      · exact List.mem_append_left _ (ih h' dep hdep)
      · simp only [List.mem_singleton, SEv.submit.injEq] at h'
        subst h'
        rcases hready with hsrc | hrdy
        · rw [sourcesOf_no_deps hacyc _ hsrc] at hdep
          simp at hdep
        · rw [is_node_ready, List.all_eq_true] at hrdy
          have := hrdy dep hdep
          rw [beq_iff_eq] at this
          exact List.mem_append_left _ ((stateAfter_eq_complete _ _).mp this)
  | beginNode h hs hnot ih =>
      intro n hn dep hdep
      rcases List.mem_append.mp hn with h' | h'
      · exact List.mem_append_left _ (ih h' dep hdep)
      · simp at h'
  | readRes h hb hu hdep' hnr hnw ih =>
      intro n hn dep hdep
      rcases List.mem_append.mp hn with h' | h'
      · exact List.mem_append_left _ (ih h' dep hdep)
      · simp at h'
  | writeRes h hb hnot ih =>
      intro n hn dep hdep
      rcases List.mem_append.mp hn with h' | h'
      · exact List.mem_append_left _ (ih h' dep hdep)
      · simp at h'
  | completeNode h hw hnot ih =>
      intro n hn dep hdep
      rcases List.mem_append.mp hn with h' | h'
      · exact List.mem_append_left _ (ih h' dep hdep)
      · simp at h'

/-- Splitting a snoc-extended list around a distinguished element:
either the element is the appended one, or the split lies inside the
original list. -/
theorem append_singleton_split {α : Type} (l₁ l₂ tr : List α) (a e : α)
    (h : l₁ ++ a :: l₂ = tr ++ [e]) :
    (l₂ = [] ∧ l₁ = tr ∧ a = e) ∨
      (∃ l₂', l₂ = l₂' ++ [e] ∧ tr = l₁ ++ a :: l₂') := by
  rcases eq_or_ne l₂ [] with rfl | hne
  · left
    have h' : l₁ ++ [a] = tr ++ [e] := h
    obtain ⟨h1, h2⟩ := List.append_inj' h' rfl
    injection h2 with he _
    exact ⟨rfl, h1, he⟩
  · right
    have hd := List.dropLast_append_getLast hne
    have h' : (l₁ ++ a :: l₂.dropLast) ++ [l₂.getLast hne] = tr ++ [e] := by
      rw [List.append_assoc, List.cons_append, hd]
      exact h
    obtain ⟨h1, h2⟩ := List.append_inj' h' rfl
    injection h2 with he _
    refine ⟨l₂.dropLast, ?_, h1.symm⟩
    rw [← he]
    exact hd.symm

/-- Happens-before facts at each point of a valid trace: a dependency
read happens only after the dependency's write and completion, and a
node begins only after every direct dependency completed and wrote. -/
theorem validTrace_split_hb {arcs : List Arc} {u : Nat → Bool}
    (hacyc : ¬ HasCycle arcs) :
    ∀ {tr}, ValidTrace arcs u tr → ∀ t₁ t₂ : List SEv,
      (∀ n dep, tr = t₁ ++ SEv.readRes n dep :: t₂ →
        SEv.writeRes dep ∈ t₁ ∧ SEv.completeNode dep ∈ t₁) ∧
      (∀ n, tr = t₁ ++ SEv.beginNode n :: t₂ →
        ∀ dep ∈ direct_dependencies arcs n,
          SEv.completeNode dep ∈ t₁ ∧ SEv.writeRes dep ∈ t₁) := by
  intro tr h
  induction h with
  | nil =>
      intro t₁ t₂
      constructor
      · intro n dep heq
        exact absurd heq.symm (by simp)
      · intro n heq
        exact absurd heq.symm (by simp)
  | submit h hmem hnot hready ih =>
      intro t₁ t₂
      constructor
      · intro n dep heq
        rcases append_singleton_split t₁ t₂ _ _ _ heq.symm with ⟨_, _, he⟩ | ⟨l₂', _, hB⟩
        · exact absurd he (by simp)
        · exact (ih t₁ l₂').1 n dep hB
      · intro n heq
        rcases append_singleton_split t₁ t₂ _ _ _ heq.symm with ⟨_, _, he⟩ | ⟨l₂', _, hB⟩
        · exact absurd he (by simp)
        · exact (ih t₁ l₂').2 n hB
  | beginNode h hs hnot ih =>
      intro t₁ t₂
      constructor
      · intro n dep heq
        rcases append_singleton_split t₁ t₂ _ _ _ heq.symm with ⟨_, _, he⟩ | ⟨l₂', _, hB⟩
        · exact absurd he (by simp)
        · exact (ih t₁ l₂').1 n dep hB
      · intro n heq
        rcases append_singleton_split t₁ t₂ _ _ _ heq.symm with ⟨_, hteq, he⟩ | ⟨l₂', _, hB⟩
        · -- the begin event itself: its submission guard was checked earlier
          simp only [SEv.beginNode.injEq] at he
          subst he
          subst hteq
          intro dep hdep
          have hcmp := validTrace_submit_deps_complete hacyc h hs dep hdep
          exact ⟨hcmp, validTrace_complete_write h hcmp⟩
        · exact (ih t₁ l₂').2 n hB
  | readRes h hb hu hdep hnr hnw ih =>
      intro t₁ t₂
      constructor
      · intro n dep heq
        rcases append_singleton_split t₁ t₂ _ _ _ heq.symm with ⟨_, hteq, he⟩ | ⟨l₂', _, hB⟩
        · -- the read event itself
          simp only [SEv.readRes.injEq] at he
          obtain ⟨rfl, rfl⟩ := he
          subst hteq
          have hsub := validTrace_begin_submit h hb
          have hcmp := validTrace_submit_deps_complete hacyc h hsub dep hdep
          exact ⟨validTrace_complete_write h hcmp, hcmp⟩
        · exact (ih t₁ l₂').1 n dep hB
      · intro n heq
        rcases append_singleton_split t₁ t₂ _ _ _ heq.symm with ⟨_, _, he⟩ | ⟨l₂', _, hB⟩
        · exact absurd he (by simp)
        · exact (ih t₁ l₂').2 n hB
  | writeRes h hb hnot ih =>
      intro t₁ t₂
      constructor
      · intro n dep heq
        rcases append_singleton_split t₁ t₂ _ _ _ heq.symm with ⟨_, _, he⟩ | ⟨l₂', _, hB⟩
        · exact absurd he (by simp)
        · exact (ih t₁ l₂').1 n dep hB
      · intro n heq
        rcases append_singleton_split t₁ t₂ _ _ _ heq.symm with ⟨_, _, he⟩ | ⟨l₂', _, hB⟩
        · exact absurd he (by simp)
        · exact (ih t₁ l₂').2 n hB
  | completeNode h hw hnot ih =>
      intro t₁ t₂
      constructor
      · intro n dep heq
        rcases append_singleton_split t₁ t₂ _ _ _ heq.symm with ⟨_, _, he⟩ | ⟨l₂', _, hB⟩
        · exact absurd he (by simp)
        · exact (ih t₁ l₂').1 n dep hB
      · intro n heq
        rcases append_singleton_split t₁ t₂ _ _ _ heq.symm with ⟨_, _, he⟩ | ⟨l₂', _, hB⟩
        · exact absurd he (by simp)
        · exact (ih t₁ l₂').2 n hB

theorem validTrace_empty_nil (u : Nat → Bool) :
    ∀ {tr}, ValidTrace [] u tr → tr = [] := by
  intro tr h
  induction h with
  | nil => rfl
  | submit h hmem hnot hready ih =>
      have hnil : nodesOf ([] : List Arc) = [] := rfl
      rw [hnil] at hmem
      simp at hmem
  | beginNode h hs hnot ih => rw [ih] at hs; simp at hs
  | readRes h hb hu hdep hnr hnw ih => rw [ih] at hb; simp at hb
  | writeRes h hb hnot ih => rw [ih] at hb; simp at hb
  | completeNode h hw hnot ih => rw [ih] at hw; simp at hw

instance (arcs : List Arc) (a b : Nat) : Decidable (ArcRel arcs a b) :=
  inferInstanceAs (Decidable ((a, b) ∈ arcs))

/-! ### The claims -/

/-- C1: For every acyclic arc set, `topological_sort` returns an
ordering of the graph's nodes in which, for every arc `(s, d)`, `s`
appears before `d`; if the arc set contains a cycle it fails with the
cycle error; and calling it on a candidate graph does not mutate that
graph's arc set (the method reads `dag.arcs` and assigns nothing). -/
theorem C1_topological_sort_correct :
    (∀ (arcs : List Arc) (l : List Nat),
        topological_sort arcs = .ok l → IsTopoOrder arcs l) ∧
    (∀ arcs : List Arc, ¬ HasCycle arcs →
        ∃ l, topological_sort arcs = .ok l ∧ IsTopoOrder arcs l) ∧
    (∀ arcs : List Arc,
        topological_sort arcs = .error .cycleError ↔ HasCycle arcs) ∧
    (∀ d : Dag, Dag.topological_sortM d = (topological_sort d.arcs, d)) := by
  refine ⟨fun arcs l h => topological_sort_ok h, ?_,
    topological_sort_error_iff, fun d => rfl⟩
  intro arcs hacyc
  cases hsl : sortLoop arcs (tsFuel arcs) (nodesOf arcs) ⟨[], [], []⟩ with
  | ok s =>
      have hok : topological_sort arcs = .ok s.sortedNodes := by
        rw [topological_sort, hsl]
      exact ⟨s.sortedNodes, hok, topological_sort_ok hok⟩
  | cycle =>
      exact absurd ((topological_sort_error_iff arcs).mp
        (by rw [topological_sort, hsl])) hacyc
  | outOfFuel =>
      exact absurd hsl
        (sortLoop_not_outOfFuel arcs _ _ (TSInv.initial arcs) (fun _ hn => hn))

theorem C1_witness :
    IsTopoOrder [(1,3),(2,3),(3,4),(3,5),(5,6)] [2,1,3,5,6,4] ∧
    topological_sort [(1,2),(2,3),(3,1)] = .error .cycleError := by
  constructor
  · exact C1_topological_sort_correct.1 [(1,3),(2,3),(3,4),(3,5),(5,6)]
      [2,1,3,5,6,4] (by decide)
  · exact (C1_topological_sort_correct.2.2.1 [(1,2),(2,3),(3,1)]).mpr
      ⟨1, [2,3], List.Chain.cons (by decide) (List.Chain.cons (by decide)
        (List.Chain.cons (by decide) List.Chain.nil))⟩

/-- C2 counterexample: appending the self-loop `(2, 2)` to the graph
`{(0, 1)}` makes the arc set cyclic, yet `add_arc` fails with the
membership `ValueError` of line 55–56 of `dag.py`, not with the cycle
error — the membership guard fires first because both endpoints are
outside the non-empty graph. -/
theorem C2_counterexample :
    HasCycle ((Dag.mk [(0,1)]).arcs ++ [(2,2)]) ∧
    Dag.add_arcM ⟨[(0,1)]⟩ 2 2 = (.error .valueError, ⟨[(0,1)]⟩) := by
  constructor
  · exact ⟨2, [], List.Chain.cons (by decide) List.Chain.nil⟩
  · decide

/-- C2 (amended): a cycle-creating `add_arc` always fails and leaves
the arc set exactly unchanged; it fails with the cycle error provided
the membership precondition holds (empty graph, or an endpoint already
a member); and any sequence of `add_arc` calls starting from an
acyclic arc set keeps the stored arc set acyclic. -/
theorem C2_add_arc_amended :
    ∀ (d : Dag) (src dst : Nat),
      (HasCycle (d.arcs ++ [(src, dst)]) →
        ∃ e, Dag.add_arcM d src dst = (.error e, d)) ∧
      ((nodesOf d.arcs = [] ∨ src ∈ nodesOf d.arcs ∨ dst ∈ nodesOf d.arcs) →
        HasCycle (d.arcs ++ [(src, dst)]) →
        Dag.add_arcM d src dst = (.error .cycleError, d)) ∧
      (∀ reqs : List (Nat × Nat), ¬ HasCycle d.arcs →
        ¬ HasCycle (add_arc_run d reqs).arcs) :=
  fun d src dst =>
    ⟨add_arcM_cyclic_fails d src dst,
     add_arcM_cyclic_cycleError d src dst,
     fun reqs h => add_arc_run_acyclic reqs d h⟩

theorem C2_witness :
    Dag.add_arcM ⟨[(0,1)]⟩ 1 0 = (.error .cycleError, ⟨[(0,1)]⟩) ∧
    ¬ HasCycle (add_arc_run ⟨[]⟩ [(0,1),(1,2)]).arcs := by
  constructor
  · exact (C2_add_arc_amended ⟨[(0,1)]⟩ 1 0).2.1 (.inr (.inl (by decide)))
      ⟨0, [1], List.Chain.cons (by decide) (List.Chain.cons (by decide) List.Chain.nil)⟩
  · exact (C2_add_arc_amended ⟨[]⟩ 0 0).2.2 [(0,1),(1,2)] not_hasCycle_nil

/-- C5 counterexample: node `2` is not a member of the graph
`{(0, 1)}`, yet `direct_dependencies` silently answers `[]` rather
than failing — `dag.py` lines 106–107 perform no membership check. -/
theorem C5_counterexample :
    2 ∉ nodesOf (Dag.mk [(0,1)]).arcs ∧
    Dag.direct_dependencies ⟨[(0,1)]⟩ 2 = [] := by
  constructor
  · decide
  · decide

/-- C5 (amended): for a node that is not a graph member, `neighbors`
and `level` fail with the not-in-graph error, while
`direct_dependencies` performs no membership check and returns the
(empty) list of arc sources. -/
theorem C5_queries_amended :
    ∀ (d : Dag) (node : Nat) (path : List Nat), node ∉ nodesOf d.arcs →
      d.neighbors node = .error .notInGraph ∧
      d.level node path = .error .notInGraph ∧
      d.direct_dependencies node = [] := by
  intro d node path h
  have hin : d._is_in_dag node = .error .notInGraph := by
    rw [Dag._is_in_dag, if_neg h]
  refine ⟨?_, ?_, ?_⟩
  · rw [Dag.neighbors, hin]
  · rw [Dag.level, hin]
  · exact direct_dependencies_not_mem h

theorem C5_witness :
    (Dag.mk [(0,1)]).neighbors 7 = .error .notInGraph ∧
    (Dag.mk [(0,1)]).level 7 [0,1] = .error .notInGraph ∧
    (Dag.mk [(0,1)]).direct_dependencies 7 = [] :=
  C5_queries_amended ⟨[(0,1)]⟩ 7 [0,1] (by decide)

/-- C8: on the arc set `[(1,3),(2,3),(3,4),(3,5),(5,6)]` the derived
sources are exactly `[1, 2]` and the sinks exactly `[4, 6]`; in
general `sources`, `sinks` and `nodes` are pure functions of the arcs
and are duplicate-free lists, `_remove_duplicates` being exactly the
first-seen deduplication. -/
theorem C8_sources_sinks :
    sourcesOf [(1,3),(2,3),(3,4),(3,5),(5,6)] = [1, 2] ∧
    sinksOf [(1,3),(2,3),(3,4),(3,5),(5,6)] = [4, 6] ∧
    (∀ arcs : List Arc, (sourcesOf arcs).Nodup ∧ (sinksOf arcs).Nodup ∧
      (nodesOf arcs).Nodup) ∧
    (∀ l : List Nat, remove_duplicates l = firstSeenDedup l ∧
      (remove_duplicates l).Nodup ∧ (∀ a, a ∈ remove_duplicates l ↔ a ∈ l) ∧
      (remove_duplicates l).Sublist l) := by
  refine ⟨by decide, by decide, ?_, ?_⟩
  · intro arcs
    exact ⟨remove_duplicates_nodup _, remove_duplicates_nodup _,
      remove_duplicates_nodup _⟩
  · intro l
    exact ⟨remove_duplicates_eq_firstSeenDedup l, remove_duplicates_nodup l,
      mem_remove_duplicates l, remove_duplicates_sublist l⟩

/-- C3: in every realizable scheduler trace over an acyclic graph, a
node begins only after each of its direct dependencies has completed
and written its result, and a dependency's result write precedes every
read of that dependency by a dependent. -/
theorem C3_dependency_happens_before :
    ∀ (arcs : List Arc) (u : Nat → Bool) (tr : List SEv),
      ¬ HasCycle arcs → ValidTrace arcs u tr →
      ∀ t₁ t₂ : List SEv,
        (∀ n dep, tr = t₁ ++ SEv.readRes n dep :: t₂ →
          SEv.writeRes dep ∈ t₁ ∧ SEv.completeNode dep ∈ t₁) ∧
        (∀ n, tr = t₁ ++ SEv.beginNode n :: t₂ →
          ∀ dep ∈ direct_dependencies arcs n,
            SEv.completeNode dep ∈ t₁ ∧ SEv.writeRes dep ∈ t₁) :=
  fun _ _ _ hacyc h => validTrace_split_hb hacyc h

theorem C3_witness :
    SEv.writeRes 0 ∈ [SEv.submit 0, SEv.beginNode 0, SEv.writeRes 0,
      SEv.completeNode 0, SEv.submit 1, SEv.beginNode 1] ∧
    SEv.completeNode 0 ∈ [SEv.submit 0, SEv.beginNode 0, SEv.writeRes 0,
      SEv.completeNode 0, SEv.submit 1, SEv.beginNode 1] := by
  have hacyc : ¬ HasCycle [(0,1)] := fun hc => by
    have h := (topological_sort_error_iff [(0,1)]).mpr hc
    exact absurd h (by decide)
  have h0 : ValidTrace [(0,1)] (fun _ => true) [] := .nil
  have h1 : ValidTrace [(0,1)] (fun _ => true) [SEv.submit 0] :=
    ValidTrace.submit h0 (by decide) (by decide) (Or.inl (by decide))
  have h2 : ValidTrace [(0,1)] (fun _ => true) [SEv.submit 0, SEv.beginNode 0] :=
    ValidTrace.beginNode h1 (by decide) (by decide)
  have h3 : ValidTrace [(0,1)] (fun _ => true)
      [SEv.submit 0, SEv.beginNode 0, SEv.writeRes 0] :=
    ValidTrace.writeRes h2 (by decide) (by decide)
  have h4 : ValidTrace [(0,1)] (fun _ => true)
      [SEv.submit 0, SEv.beginNode 0, SEv.writeRes 0, SEv.completeNode 0] :=
    ValidTrace.completeNode h3 (by decide) (by decide)
  have h5 : ValidTrace [(0,1)] (fun _ => true)
      [SEv.submit 0, SEv.beginNode 0, SEv.writeRes 0, SEv.completeNode 0,
        SEv.submit 1] :=
    ValidTrace.submit h4 (by decide) (by decide) (Or.inr (by decide))
  have h6 : ValidTrace [(0,1)] (fun _ => true)
      [SEv.submit 0, SEv.beginNode 0, SEv.writeRes 0, SEv.completeNode 0,
        SEv.submit 1, SEv.beginNode 1] :=
    ValidTrace.beginNode h5 (by decide) (by decide)
  have h7 : ValidTrace [(0,1)] (fun _ => true)
      [SEv.submit 0, SEv.beginNode 0, SEv.writeRes 0, SEv.completeNode 0,
        SEv.submit 1, SEv.beginNode 1, SEv.readRes 1 0] :=
    ValidTrace.readRes h6 (by decide) rfl (by decide) (by decide) (by decide)
  exact (C3_dependency_happens_before [(0,1)] (fun _ => true) _ hacyc h7
    [SEv.submit 0, SEv.beginNode 0, SEv.writeRes 0, SEv.completeNode 0,
      SEv.submit 1, SEv.beginNode 1] []).1 1 0 rfl

/-- C9: a run over a graph with no arcs (hence no nodes) completes
immediately: every-node-complete holds trivially, the engines have no
source to launch, the only realizable trace is empty, and zero result
writes occur. -/
theorem C9_empty_graph_run :
    sourcesOf ([] : List Arc) = [] ∧
    are_all_nodes_complete ([] : List Arc) (stateAfter []) = true ∧
    (∀ (u : Nat → Bool) (tr : List SEv), ValidTrace [] u tr →
      tr = [] ∧ tr.countP isWriteSEv = 0) := by
  refine ⟨rfl, rfl, ?_⟩
  intro u tr h
  have ht := validTrace_empty_nil u h
  subst ht
  exact ⟨rfl, rfl⟩

theorem C9_witness :
    ([] : List SEv) = [] ∧ ([] : List SEv).countP isWriteSEv = 0 :=
  C9_empty_graph_run.2.2 (fun _ => true) [] ValidTrace.nil

/-- C4: a single successful `Node.start` performs, in order: the
RUNNING transition, the dependency reads building the
label-to-result mapping (none when `use_dependency_results` is false,
the callback then receiving the empty mapping), the callback call, the
kind check, exactly one `write_result`, and the COMPLETE transition —
one pass through Running and Complete and exactly one write; a
mismatching callback result fails with the type-mismatch error. -/
theorem C4_node_start_contract :
    (∀ (node : NodeDef) (deps : List NodeDef) (store : Store)
        (m : List (Nat × ResultV)) (r : ResultV),
      node.use_dependency_results = true →
      (readDeps store deps).2 = .ok m →
      node.callback m = .ok r →
      r.kind = node.result_kind →
      Node.start node deps store =
        ([NEv.setState .running] ++ deps.map (fun d => NEv.readRes d.label) ++
           [NEv.callbackEv, NEv.writeRes node.label, NEv.setState .complete],
         .complete, .ok (write_result store r node.label)) ∧
      (Node.start node deps store).1.countP isWriteNEv = 1 ∧
      (Node.start node deps store).1.filterMap nevState =
        [NodeStateEnum.running, NodeStateEnum.complete]) ∧
    (∀ (node : NodeDef) (deps : List NodeDef) (store : Store)
        (m : List (Nat × ResultV)) (r : ResultV),
      node.use_dependency_results = true →
      (readDeps store deps).2 = .ok m →
      node.callback m = .ok r →
      r.kind ≠ node.result_kind →
      Node.start node deps store =
        ([NEv.setState .running] ++ deps.map (fun d => NEv.readRes d.label) ++
           [NEv.callbackEv], .running, .error .typeMismatch)) ∧
    (∀ (node : NodeDef) (deps : List NodeDef) (store : Store) (r : ResultV),
      node.use_dependency_results = false →
      node.callback [] = .ok r →
      r.kind = node.result_kind →
      Node.start node deps store =
        ([NEv.setState .running, NEv.callbackEv, NEv.writeRes node.label,
           NEv.setState .complete],
         .complete, .ok (write_result store r node.label))) := by
  refine ⟨?_, ?_, ?_⟩
  · intro node deps store m r huse hm hcb hk
    have heq := node_start_ok_trace node deps store m r huse hm hcb hk
    have htr := readDeps_ok_trace store deps m hm
    refine ⟨by rw [heq, htr], ?_, ?_⟩
    · rw [heq]
      rw [List.countP_append, List.countP_append,
        countP_isWrite_of_reads _ (readDeps_trace_reads store deps)]
      simp [isWriteNEv, List.countP_cons]
    · rw [heq]
      rw [List.filterMap_append, List.filterMap_append,
        filterMap_nevState_of_reads _ (readDeps_trace_reads store deps)]
      simp [nevState]
  · intro node deps store m r huse hm hcb hk
    have heq := node_start_mismatch node deps store m r huse hm hcb hk
    have htr := readDeps_ok_trace store deps m hm
    rw [heq, htr]
  · intro node deps store r huse hcb hk
    exact node_start_nouse_ok node deps store r huse hcb hk

theorem C4_witness :
    Node.start ⟨0, 7, true, fun m => .ok ⟨7, 42⟩⟩
        [⟨1, 7, true, fun _ => .ok ⟨7, 1⟩⟩] [(1, ⟨7, 5⟩)] =
      ([NEv.setState .running, NEv.readRes 1, NEv.callbackEv, NEv.writeRes 0,
         NEv.setState .complete],
       .complete, .ok [(0, ⟨7, 42⟩), (1, ⟨7, 5⟩)]) := by
  have h := (C4_node_start_contract.1 ⟨0, 7, true, fun m => .ok ⟨7, 42⟩⟩
    [⟨1, 7, true, fun _ => .ok ⟨7, 1⟩⟩] [(1, ⟨7, 5⟩)] [(1, ⟨7, 5⟩)] ⟨7, 42⟩
    rfl rfl rfl rfl).1
  exact h

/-- C10: when the callback raises or its return value fails the
declared-kind check, `Node.start` performs no `write_result` and the
node's state stays Running: the only recorded transition is to
Running, never back to Idle nor on to Complete. -/
theorem C10_failed_start_no_write :
    ∀ (node : NodeDef) (deps : List NodeDef) (store : Store),
      ((Node.start node deps store).2.2 = .error .callbackError ∨
       (Node.start node deps store).2.2 = .error .typeMismatch) →
      (Node.start node deps store).2.1 = .running ∧
      (Node.start node deps store).1.countP isWriteNEv = 0 ∧
      (Node.start node deps store).1.filterMap nevState =
        [NodeStateEnum.running] := by
  intro node deps store hout
  by_cases huse : node.use_dependency_results = true
  · cases hrd : (readDeps store deps).2 with
    | error e =>
        have heq := node_start_read_error node deps store e huse hrd
        rw [heq] at hout
        have he := readDeps_error_readError store deps e hrd
        subst he
        rcases hout with h | h <;> simp at h
    | ok m =>
        cases hcb : node.callback m with
        | error uu =>
            have heq := node_start_cb_error node deps store m uu huse hrd hcb
            rw [heq]
            refine ⟨rfl, ?_, ?_⟩
            · rw [List.countP_append, List.countP_append,
                countP_isWrite_of_reads _ (readDeps_trace_reads store deps)]
              simp [isWriteNEv, List.countP_cons]
            · rw [List.filterMap_append, List.filterMap_append,
                filterMap_nevState_of_reads _ (readDeps_trace_reads store deps)]
              simp [nevState]
        | ok r =>
            by_cases hk : r.kind = node.result_kind
            · have heq := node_start_ok_trace node deps store m r huse hrd hcb hk
              rw [heq] at hout
              rcases hout with h | h <;> simp at h
            · have heq := node_start_mismatch node deps store m r huse hrd hcb hk
              rw [heq]
              refine ⟨rfl, ?_, ?_⟩
              · rw [List.countP_append, List.countP_append,
                  countP_isWrite_of_reads _ (readDeps_trace_reads store deps)]
                simp [isWriteNEv, List.countP_cons]
              · rw [List.filterMap_append, List.filterMap_append,
                  filterMap_nevState_of_reads _ (readDeps_trace_reads store deps)]
                simp [nevState]
  · have huse' : node.use_dependency_results = false := by
      rwa [Bool.not_eq_true] at huse
    cases hcb : node.callback [] with
    | error uu =>
        have heq := node_start_nouse_cb_error node deps store uu huse' hcb
        rw [heq]
        exact ⟨rfl, by simp [isWriteNEv, List.countP_cons], by simp [nevState]⟩
    | ok r =>
        by_cases hk : r.kind = node.result_kind
        · have heq := node_start_nouse_ok node deps store r huse' hcb hk
          rw [heq] at hout
          rcases hout with h | h <;> simp at h
        · have heq := node_start_nouse_mismatch node deps store r huse' hcb hk
          rw [heq]
          exact ⟨rfl, by simp [isWriteNEv, List.countP_cons], by simp [nevState]⟩

theorem C10_witness :
    (Node.start ⟨0, 7, false, fun _ => .error ()⟩ [] []).2.1 = .running ∧
    (Node.start ⟨0, 7, false, fun _ => .error ()⟩ [] []).1.countP isWriteNEv = 0 ∧
    (Node.start ⟨0, 7, false, fun _ => .error ()⟩ [] []).1.filterMap nevState =
      [NodeStateEnum.running] :=
  C10_failed_start_no_write ⟨0, 7, false, fun _ => .error ()⟩ [] []
    (Or.inl (by decide))

/-- C6 (code-bug evaluation): `LocalResultIO` exposes the optional
scratch-area operations under the names `create_temp_location` /
`delete_temp_location`, but the engines' `start` methods probe
`hasattr` for `create_temp_directory` / `delete_temp_directory`, so a
run with this store issues no scratch-area call at all — neither the
create before the run nor the delete on any exit path. -/
theorem C6_scratch_hooks_mismatch :
    scratch_ops_exposed localResultIO_attrs = true ∧
    conduit_start_hook_calls localResultIO_attrs = [] := by
  exact ⟨rfl, rfl⟩

/-- C7 (code-bug evaluation): in the thread-pool engine, a run with a
failed task never aborts with a wrapped scheduler-level error — it
hangs.  A raising `Node.start` performs no write and leaves its node
RUNNING forever (`update_node_state`, `node.py` lines 8–22, sets
COMPLETE only after the body returned), and this theorem shows that in
every reachable engine state containing such a node — one that began
but never wrote — the guard of the submission loop
`while not self.are_all_nodes_complete()` (`conduit.py` line 163) is
still false.  `_submit_node_tasks` therefore never returns, so the
future-collection loop of `_main_loop` (`conduit.py` lines 179–184),
the only place a task failure could be re-raised as a `ConduitError`,
is unreachable in any failing run. -/
theorem C7_failed_task_engine_hangs :
    ∀ (arcs : List Arc) (u : Nat → Bool) (tr : List SEv) (f : Nat),
      ValidTrace arcs u tr → f ∈ nodesOf arcs →
      SEv.beginNode f ∈ tr → SEv.writeRes f ∉ tr →
      are_all_nodes_complete arcs (stateAfter tr) = false := by
  intro arcs u tr f h hf hb hw
  have hc : SEv.completeNode f ∉ tr := fun hcm => hw (validTrace_complete_write h hcm)
  have hst : stateAfter tr f = .running := by
    rw [stateAfter, if_neg hc, if_pos hb]
  cases hall : are_all_nodes_complete arcs (stateAfter tr) with
  | false => rfl
  | true =>
      exfalso
      rw [are_all_nodes_complete, List.all_eq_true] at hall
      have := hall f hf
      rw [hst] at this
      exact absurd this (by simp)

theorem C7_witness :
    are_all_nodes_complete [(0,1)]
      (stateAfter [SEv.submit 0, SEv.beginNode 0]) = false := by
  have h0 : ValidTrace [(0,1)] (fun _ => true) [] := .nil
  have h1 : ValidTrace [(0,1)] (fun _ => true) [SEv.submit 0] :=
    ValidTrace.submit h0 (by decide) (by decide) (Or.inl (by decide))
  have h2 : ValidTrace [(0,1)] (fun _ => true) [SEv.submit 0, SEv.beginNode 0] :=
    ValidTrace.beginNode h1 (by decide) (by decide)
  exact C7_failed_task_engine_hangs [(0,1)] (fun _ => true)
    [SEv.submit 0, SEv.beginNode 0] 0 h2 (by decide) (by decide) (by decide)

end PocDag
